import Mathlib

/-!
# libcutsim `FileIO` : STL and structured-mesh loading

A shallow embedding of `src/fileio.cpp` (`FileIO::loadStl`, `FileIO::parseStlData`,
`FileIO::parseStlLine`, `FileIO::loadMesh`, `FileIO::getFacets`) and theorems about it.

Modelling conventions

* A file is a list of bytes.  The facet store `facets` (a `std::vector<Facet*>` that lives
  as long as the `FileIO` object) is passed in and out explicitly as a `List Facet`.
* A `float` is represented by its 32-bit object representation (a little-endian host is
  assumed, as on x86 and ARM Linux), so `reinterpret_cast`-style binary reads are exact.
* What the C++ standard library or the platform decides is a field of `Env`:
  the signedness of plain `char`, the result of `std::stof` on a token, and the bytes found
  in a buffer that a failed `istream::read` left unwritten.
* Console output (`std::cout`) and the counters that only feed it are not modelled.
-/

namespace cutsim

/-! ## Bytes and text -/

/-- One byte of a file (an `unsigned char` value). -/
abbrev Byte := Fin 256

/-- The byte of a character (all keywords are ASCII). -/
def charByte (c : Char) : Byte := Fin.ofNat c.toNat

/-- The bytes of a string literal. -/
def str (s : String) : List Byte := s.toList.map charByte

/-- The newline byte, the delimiter of `std::getline`. -/
def nl : Byte := 10

/-- Keyword `solid`, tested by the format sniffing (line 62). -/
def kwSolid : List Byte := str "solid"

/-- Keyword `facet normal` (line 90). -/
def kwFacetNormal : List Byte := str "facet normal"

/-- Keyword `vertex` (line 96). -/
def kwVertex : List Byte := str "vertex"

/-- Keyword `endfacet` (line 105). -/
def kwEndfacet : List Byte := str "endfacet"

/-- Keyword `endsolid` (line 119). -/
def kwEndsolid : List Byte := str "endsolid"

/-- Does `hay` begin with `needle`? -/
def startsWith : List Byte → List Byte → Bool
  | _, [] => true
  | [], _ :: _ => false
  | h :: hs, n :: ns => h == n && startsWith hs ns

/-- The test `boost::algorithm::contains(hay, needle)`: `needle` occurs in `hay` as a
contiguous, case-sensitive substring (an empty `needle` always occurs). -/
def contains : List Byte → List Byte → Bool
  | [], needle => needle.isEmpty
  | h :: hs, needle => startsWith (h :: hs) needle || contains hs needle

/-- Worker of `replaceAllEmpty`: `skip` is the number of bytes of the current match that are
still to be dropped. -/
def replaceAllAux (needle : List Byte) : Nat → List Byte → List Byte
  | _, [] => []
  | skip + 1, _ :: cs => replaceAllAux needle skip cs
  | 0, c :: cs =>
    if needle ≠ [] ∧ startsWith (c :: cs) needle = true then
      replaceAllAux needle (needle.length - 1) cs
    else c :: replaceAllAux needle 0 cs

/-- The call `boost::algorithm::replace_all(line, needle, "")` (line 207): every occurrence
of `needle`, found left to right without overlap, is removed; the text put back (nothing)
is not searched again. -/
def replaceAllEmpty (line needle : List Byte) : List Byte :=
  replaceAllAux needle 0 line

/-- The classification `boost::algorithm::is_space()` in the classic locale:
space, `\t`, `\n`, `\v`, `\f`, `\r`. -/
def isSpace (b : Byte) : Bool :=
  b.val == 32 || (9 ≤ b.val && b.val ≤ 13)

/-- The call `boost::algorithm::trim(line)` (line 208): leading and trailing white space
is removed. -/
def trim (line : List Byte) : List Byte :=
  ((line.dropWhile isSpace).reverse.dropWhile isSpace).reverse

/-- The call `boost::algorithm::split(strVec, line, is_space())` (line 210) with the default
`token_compress_off`: every white-space byte is a separator, so adjacent separators give
empty tokens, and the empty input gives one empty token. -/
def split : List Byte → List (List Byte)
  | [] => [[]]
  | c :: cs =>
    if isSpace c then [] :: split cs
    else
      match split cs with
      | t :: ts => (c :: t) :: ts
      | [] => [[c]]

/-! ## Geometry values -/

/-- A C++ `float`, given by its 32-bit pattern. -/
structure Float32 where
  bits : Nat
  deriving DecidableEq, Repr

/-- The value `0.0f`. -/
def Float32.zero : Float32 := ⟨0⟩

/-- The value `1.0f` (bit pattern `0x3F800000`). -/
def Float32.one : Float32 := ⟨0x3F800000⟩

/-- Modelled from the spec: `GLVertex` is declared in `glvertex.hpp`, which is not part of
the sources at hand; the spec describes it as a value type with three single-precision
components x, y, z. -/
structure GLVertex where
  x : Float32
  y : Float32
  z : Float32
  deriving DecidableEq, Repr

/-- Modelled from the spec: the default-constructed `GLVertex` (lines 70, 212, 238) has the
default (zero) value in every component. -/
def GLVertex.default : GLVertex := ⟨Float32.zero, Float32.zero, Float32.zero⟩

/-- Modelled from the spec: `Facet` is declared in `facet.hpp`, which is not part of the
sources at hand; the spec describes it as a record of one normal and three vertices, built
by `Facet(normal, v0, v1, v2)`. -/
structure Facet where
  normal : GLVertex
  v1 : GLVertex
  v2 : GLVertex
  v3 : GLVertex
  deriving DecidableEq, Repr

/-- What the platform and the C++ standard library decide. -/
structure Env where
  /-- whether plain `char` is a signed type (it is on x86 Linux) -/
  charSigned : Bool
  /-- the call `std::stof(token)`: the parsed value, or `none` when it throws
  (`std::invalid_argument` or `std::out_of_range`) -/
  stof : List Byte → Option Float32
  /-- the byte found in a buffer position that a failed `istream::read` did not write;
  the argument is the file offset the missing byte would have had.  In the program such a
  byte is what the stack held before, which may depend on what the call read earlier, so
  two loads are only compared where no such byte is used -/
  uninit : Nat → Byte

/-- How a call ends: it returns a `bool`, or a C++ exception leaves it. -/
inductive Outcome where
  | returned (b : Bool)
  | threw
  deriving DecidableEq, Repr

/-! ## `FileIO::parseStlLine` (lines 202-221) -/

/-- The function `FileIO::parseStlLine`: the keyword is removed from the line, the line is
trimmed and split at white space; with exactly three tokens each one goes through
`std::stof`, otherwise the default vertex is returned.  `none` stands for an exception
thrown by `std::stof`. -/
def parseStlLine (env : Env) (line stlString : List Byte) : Option GLVertex :=
  let line := replaceAllEmpty line stlString
  let line := trim line
  let strVec := split line
  match strVec with
  | [t0, t1, t2] =>
    match env.stof t0 with
    | none => none
    | some x =>
      match env.stof t1 with
      | none => none
      | some y =>
        match env.stof t2 with
        | none => none
        | some z => some ⟨x, y, z⟩
  | _ => some GLVertex.default

/-! ## Streams -/

/-- A `std::ifstream` that has been opened on a file: the bytes not yet extracted, and the
number of bytes requested so far. -/
structure IfStream where
  rest : List Byte
  off : Nat

/-- Opening a stream on the bytes of a file. -/
def IfStream.ofBytes (bytes : List Byte) : IfStream := ⟨bytes, 0⟩

/-- The bytes up to the first newline, and the bytes after that newline. -/
def splitLine : List Byte → List Byte × List Byte
  | [] => ([], [])
  | b :: bs =>
    if b = nl then ([], bs)
    else ((b :: (splitLine bs).1), (splitLine bs).2)

/-- The call `std::getline(stream, line)`: it fails (`none`) when no byte is left, otherwise
it gives the bytes before the next newline and consumes that newline. -/
def IfStream.getline (s : IfStream) : Option (List Byte × IfStream) :=
  match s.rest with
  | [] => none
  | b :: bs =>
    some ((splitLine (b :: bs)).1,
      ⟨(splitLine (b :: bs)).2, s.off + ((b :: bs).length - (splitLine (b :: bs)).2.length)⟩)

/-- Worker of `readLines`; `cur` is the current line, reversed. -/
def readLinesAux : List Byte → List Byte → List (List Byte)
  | [], [] => []
  | [], c :: cur => [(c :: cur).reverse]
  | b :: bs, cur =>
    if b = nl then cur.reverse :: readLinesAux bs []
    else readLinesAux bs (b :: cur)

/-- The lines that the successive calls of `std::getline` in `while (getline(stlFile, line))`
return until the call fails (see `readLines_eq_getline`). -/
def readLines (bytes : List Byte) : List (List Byte) :=
  readLinesAux bytes []

/-- The call `stream.read(buf, n)`: the `n` bytes found in `buf` afterwards.  Bytes that
the stream still had are copied; where the stream ended early the buffer keeps what it
held before, `env.uninit`. -/
def IfStream.read (env : Env) (s : IfStream) (n : Nat) : List Byte × IfStream :=
  ((List.range n).map (fun i => s.rest.getD i (env.uninit (s.off + i))),
    ⟨s.rest.drop n, s.off + n⟩)

/-! ## `FileIO::loadStl`, ASCII part (lines 68-128) -/

/-- The locals of the ASCII loop that outlive one line: the pending normal `n` and the
pending `vertices` (lines 70-71). -/
structure ParseState where
  n : GLVertex
  vertices : List GLVertex

/-- The locals as declared before the loop: a default normal and no pending vertex. -/
def ParseState.init : ParseState := ⟨GLVertex.default, []⟩

/-- What the body of the `while` loop does with one line. -/
inductive LineResult where
  /-- an exception of `std::stof` left `parseStlLine` -/
  | threw
  /-- the `return true` at an `endsolid` line (line 122) was reached -/
  | done (facets : List Facet)
  /-- the body ran to its end; the loop reads the next line -/
  | next (st : ParseState) (facets : List Facet)

/-- The `facet normal` test of the loop body (lines 90-93). -/
def stepNormal (env : Env) (line : List Byte) (st : ParseState) : Option ParseState :=
  if contains line kwFacetNormal then
    match parseStlLine env line kwFacetNormal with
    | none => none
    | some n => some { st with n := n }
  else some st

/-- The `vertex` test of the loop body (lines 96-102). -/
def stepVertex (env : Env) (line : List Byte) (st : ParseState) : Option ParseState :=
  if contains line kwVertex then
    match parseStlLine env line kwVertex with
    | none => none
    | some v => some { st with vertices := st.vertices ++ [v] }
  else some st

/-- The `endfacet` test of the loop body (lines 105-116): with exactly three pending
vertices a facet is appended to the store; the pending vertices are cleared either way. -/
def stepEndfacet (line : List Byte) (st : ParseState) (facets : List Facet) :
    ParseState × List Facet :=
  if contains line kwEndfacet then
    match st.vertices with
    | [a, b, c] => ({ st with vertices := [] }, facets ++ [Facet.mk st.n a b c])
    | _ => ({ st with vertices := [] }, facets)
  else (st, facets)

/-- The body of the `while` loop (lines 89-123): the four keyword tests, in source order. -/
def processLine (env : Env) (line : List Byte) (st : ParseState) (facets : List Facet) :
    LineResult :=
  match stepNormal env line st with
  | none => .threw
  | some st1 =>
    match stepVertex env line st1 with
    | none => .threw
    | some st2 =>
      let r := stepEndfacet line st2 facets
      if contains line kwEndsolid then .done r.2
      else .next r.1 r.2

/-- The loop `while (getline(stlFile, line)) { ... }` followed by `return false` (lines
77-127), run over the lines that `getline` delivers. -/
def asciiLoop (env : Env) : List (List Byte) → ParseState → List Facet → Outcome × List Facet
  | [], _, facets => (.returned false, facets)
  | line :: more, st, facets =>
    match processLine env line st facets with
    | .threw => (.threw, facets)
    | .done fs => (.returned true, fs)
    | .next st1 fs => asciiLoop env more st1 fs

/-! ## `FileIO::parseStlData` and the binary part of `FileIO::loadStl` (lines 136-200) -/

/-- The `float` whose object representation is the given four bytes (little-endian host). -/
def Float32.ofBytes (buf : List Byte) : Float32 :=
  ⟨(buf.getD 0 0).val + 256 * (buf.getD 1 0).val + 65536 * (buf.getD 2 0).val
    + 16777216 * (buf.getD 3 0).val⟩

/-- The function `FileIO::parseStlData`: three reads of `sizeof(float)` bytes, straight
into `x`, `y` and `z`. -/
def parseStlData (env : Env) (stlFile : IfStream) : GLVertex × IfStream :=
  let rx := stlFile.read env 4
  let ry := rx.2.read env 4
  let rz := ry.2.read env 4
  (⟨Float32.ofBytes rx.1, Float32.ofBytes ry.1, Float32.ofBytes rz.1⟩, rz.2)

/-- The conversion `static_cast<unsigned int>(c)` of a plain `char` holding the byte `c`
(line 157): with a signed `char` a byte above 127 is a negative value and wraps modulo
`2^32`. -/
def charToUInt (env : Env) (c : Byte) : Nat :=
  if env.charSigned ∧ 128 ≤ c.val then c.val + (2 ^ 32 - 256) else c.val

/-- The value of `triangleCount` (lines 146-157): 80 header bytes and the 4 bytes of
`triangleData` are read from a stream opened at offset 0, and `*triangleData`, the first
of the four, is converted. -/
def triangleCount (env : Env) (bytes : List Byte) : Nat :=
  let hdr := (IfStream.ofBytes bytes).read env 80
  let triangleData := hdr.2.read env 4
  charToUInt env (triangleData.1.getD 0 0)

/-- The loop `for (unsigned int i = 0; i < triangleCount; i++)` (lines 167-178), by the
number of iterations left: four `parseStlData` calls, the facet is appended, two attribute
bytes are read. -/
def binaryLoop (env : Env) : Nat → IfStream → List Facet → List Facet
  | 0, _, facets => facets
  | k + 1, stlFile, facets =>
    let normal := parseStlData env stlFile
    let v1 := parseStlData env normal.2
    let v2 := parseStlData env v1.2
    let v3 := parseStlData env v2.2
    let attr := v3.2.read env 2
    binaryLoop env k attr.2 (facets ++ [Facet.mk normal.1 v1.1 v2.1 v3.1])

/-- The block `if (binaryFile) { ... }` and the final `return true` (lines 136-184).  The
file is opened a second time, which is taken to succeed as the first open did. -/
def loadStlBinary (env : Env) (bytes : List Byte) (facets : List Facet) :
    Outcome × List Facet :=
  let hdr := (IfStream.ofBytes bytes).read env 80
  let triangleData := hdr.2.read env 4
  if triangleCount env bytes = 0 then (.returned false, facets)
  else (.returned true, binaryLoop env (triangleCount env bytes) triangleData.2 facets)

/-- The function `FileIO::loadStl`.  `file` is `none` when the path cannot be opened,
otherwise the content of the file; `facets` is the store before the call.  The result is
how the call ends, and the store after it. -/
def loadStl (env : Env) (file : Option (List Byte)) (facets : List Facet) :
    Outcome × List Facet :=
  match file with
  | none => (.returned false, facets)
  | some bytes =>
    let stlFile := IfStream.ofBytes bytes
    match stlFile.getline with
    | none =>
      -- `line` stays empty and does not contain `solid`
      loadStlBinary env bytes facets
    | some (line, stlFile) =>
      if contains line kwSolid then
        asciiLoop env (readLines stlFile.rest) ParseState.init facets
      else loadStlBinary env bytes facets

/-- The function `FileIO::getFacets`: the store itself. -/
def getFacets (facets : List Facet) : List Facet := facets

/-! ## `FileIO::loadMesh` (lines 223-265) -/

/-- A Python object as `loadMesh` sees it: a number (given by the `float` that
`boost::python::extract<float>` yields for it), a sequence that supports `len` and
indexing (list or tuple), or any other object. -/
inductive PyObj where
  | num (f : Float32)
  | seq (items : List PyObj)
  | other

/-- The call `boost::python::len(o)`; `none` when Python raises. -/
def PyObj.len : PyObj → Option Nat
  | .seq items => some items.length
  | _ => none

/-- The indexing `o[i]`; `none` when Python raises. -/
def PyObj.item : PyObj → Nat → Option PyObj
  | .seq items, i => items.get? i
  | _, _ => none

/-- The conversion `boost::python::extract<float>(o)`; `none` when it raises. -/
def PyObj.extractFloat : PyObj → Option Float32
  | .num f => some f
  | _ => none

/-- One pass of the inner loop body (lines 246-254): the three components of `record[j]`. -/
def extractVertex (record : PyObj) (j : Nat) : Option GLVertex :=
  match record.item j with
  | none => none
  | some t =>
    match (t.item 0).bind PyObj.extractFloat with
    | none => none
    | some f0 =>
      match (t.item 1).bind PyObj.extractFloat with
      | none => none
      | some f1 =>
        match (t.item 2).bind PyObj.extractFloat with
        | none => none
        | some f2 => some ⟨f0, f1, f2⟩

/-- The body of the outer loop (lines 241-259) for one record: with `len(record) == 4` the
four entries fill `vertexData[0..3]` and a facet is appended.  `none` when Python raises. -/
def loadRecord (record : PyObj) (facets : List Facet) : Option (List Facet) :=
  match record.len with
  | none => none
  | some dataLen =>
    if dataLen = 4 then
      match extractVertex record 0 with
      | none => none
      | some d0 =>
        match extractVertex record 1 with
        | none => none
        | some d1 =>
          match extractVertex record 2 with
          | none => none
          | some d2 =>
            match extractVertex record 3 with
            | none => none
            | some d3 => some (facets ++ [Facet.mk d0 d1 d2 d3])
    else some facets

/-- The loop `for (int i = 0; i < len; i++)` and the final `return true` (lines 240-263). -/
def meshLoop : List PyObj → List Facet → Outcome × List Facet
  | [], facets => (.returned true, facets)
  | record :: more, facets =>
    match loadRecord record facets with
    | none => (.threw, facets)
    | some fs => meshLoop more fs

/-- The function `FileIO::loadMesh`: an empty list is refused, otherwise the records are
processed in order. -/
def loadMesh (pyfacets : List PyObj) (facets : List Facet) : Outcome × List Facet :=
  if pyfacets.length = 0 then (.returned false, facets)
  else meshLoop pyfacets facets

/-! ## A concrete environment -/

/-- The bit patterns of the `float` values `0.0f` to `9.0f`. -/
def digitFloat32 : Nat → Float32
  | 0 => ⟨0x00000000⟩
  | 1 => ⟨0x3F800000⟩
  | 2 => ⟨0x40000000⟩
  | 3 => ⟨0x40400000⟩
  | 4 => ⟨0x40800000⟩
  | 5 => ⟨0x40A00000⟩
  | 6 => ⟨0x40C00000⟩
  | 7 => ⟨0x40E00000⟩
  | 8 => ⟨0x41000000⟩
  | _ => ⟨0x41100000⟩

/-- Can the byte continue a number after a digit: a digit, `.`, `e`, `E`, `x`, `X`, `p`,
`P`? -/
def continuesNumber (b : Byte) : Bool :=
  (48 ≤ b.val && b.val ≤ 57) || b.val == 46 || b.val == 101 || b.val == 69 ||
    b.val == 120 || b.val == 88 || b.val == 112 || b.val == 80

/-- A sample of `std::stof`, for evaluating examples.  Like `std::stof` it converts the
longest numeric prefix of a token and ignores what follows it.  It covers the tokens that
begin with one decimal digit `d`, optionally followed by `.` and zeros, where the next byte
(if any) cannot continue a number: the value is `d`.  It gives `none` on every other token,
which is what `std::stof` does (it throws) on a token that begins with a byte that cannot
begin a number, such as `abc`. -/
def sampleStof (tok : List Byte) : Option Float32 :=
  match tok with
  | [] => none
  | d :: rest =>
    if 48 ≤ d.val ∧ d.val ≤ 57 then
      match rest with
      | [] => some (digitFloat32 (d.val - 48))
      | c :: more =>
        if c.val = 46 then
          match more.dropWhile (fun b => b.val == 48) with
          | [] => some (digitFloat32 (d.val - 48))
          | e :: _ => if continuesNumber e then none else some (digitFloat32 (d.val - 48))
        else if continuesNumber c then none
        else some (digitFloat32 (d.val - 48))
    else none

/-- An environment for evaluating examples: signed `char` as on x86 Linux, zero bytes in
unwritten buffers, and `sampleStof`. -/
def sampleEnv : Env := ⟨true, sampleStof, fun _ => 0⟩

/-! ## Vocabulary for stating properties of ASCII input -/

/-- The lines `ls`, each followed by a newline. -/
def unlines : List (List Byte) → List Byte
  | [] => []
  | l :: ls => l ++ nl :: unlines ls

/-- The first line of a file: the bytes before the first newline. -/
def firstLine (bytes : List Byte) : List Byte :=
  bytes.takeWhile (fun b => decide (b ≠ nl))

/-- What follows the first line of a file and the newline that closes it. -/
def afterFirstLine (bytes : List Byte) : List Byte :=
  (bytes.dropWhile (fun b => decide (b ≠ nl))).drop 1

/-- A line that matches none of the four keyword tests of the loop (`outer loop`,
`endloop`, an empty line, ...). -/
def isPlainLine (l : List Byte) : Prop :=
  contains l kwFacetNormal = false ∧ contains l kwVertex = false ∧
    contains l kwEndfacet = false ∧ contains l kwEndsolid = false

/-- A `facet normal x y z` line: it matches only the `facet normal` test, and
`parseStlLine` gives `n` for it. -/
def isNormalLine (env : Env) (l : List Byte) (n : GLVertex) : Prop :=
  contains l kwFacetNormal = true ∧ contains l kwVertex = false ∧
    contains l kwEndfacet = false ∧ contains l kwEndsolid = false ∧
    parseStlLine env l kwFacetNormal = some n

/-- A `vertex x y z` line: it matches only the `vertex` test, and `parseStlLine` gives `v`
for it. -/
def isVertexLine (env : Env) (l : List Byte) (v : GLVertex) : Prop :=
  contains l kwFacetNormal = false ∧ contains l kwVertex = true ∧
    contains l kwEndfacet = false ∧ contains l kwEndsolid = false ∧
    parseStlLine env l kwVertex = some v

/-- An `endfacet` line: it matches only the `endfacet` test. -/
def isEndfacetLine (l : List Byte) : Prop :=
  contains l kwFacetNormal = false ∧ contains l kwVertex = false ∧
    contains l kwEndfacet = true ∧ contains l kwEndsolid = false

/-- No `std::stof` call made for the line throws (every numeric token parses). -/
def lineParses (env : Env) (l : List Byte) : Prop :=
  (contains l kwFacetNormal = true → (parseStlLine env l kwFacetNormal).isSome = true) ∧
    (contains l kwVertex = true → (parseStlLine env l kwVertex).isSome = true)

/-- A facet block of an ASCII file.  `lead` are lines before the `facet normal` line that
match no keyword; `body` are the lines between the `facet normal` line and the `endfacet`
line, where `(l, some v)` is a `vertex` line that parses to `v` and `(l, none)` is a line
that matches no keyword. -/
structure AsciiBlock where
  lead : List (List Byte)
  normalLine : List Byte
  normal : GLVertex
  body : List (List Byte × Option GLVertex)
  endLine : List Byte

/-- The lines of a block, in file order. -/
def AsciiBlock.lines (b : AsciiBlock) : List (List Byte) :=
  b.lead ++ b.normalLine :: (b.body.map Prod.fst ++ [b.endLine])

/-- The parsed values of the `vertex` lines of a block, in file order. -/
def AsciiBlock.vertices (b : AsciiBlock) : List GLVertex :=
  b.body.filterMap Prod.snd

/-- The lines of a block are of the stated kinds, and none holds a newline. -/
def AsciiBlock.wf (env : Env) (b : AsciiBlock) : Prop :=
  (∀ l ∈ b.lead, isPlainLine l) ∧
    isNormalLine env b.normalLine b.normal ∧
    (∀ p ∈ b.body, match p.2 with
      | some v => isVertexLine env p.1 v
      | none => isPlainLine p.1) ∧
    isEndfacetLine b.endLine ∧
    (∀ l ∈ b.lines, nl ∉ l)

/-- The facet of a block with three `vertex` lines: its normal and its vertices in file
order. -/
def AsciiBlock.facet (b : AsciiBlock) : Facet :=
  ⟨b.normal, b.vertices.getD 0 GLVertex.default, b.vertices.getD 1 GLVertex.default,
    b.vertices.getD 2 GLVertex.default⟩

/-- The lines of a sequence of blocks. -/
def blockLines : List AsciiBlock → List (List Byte)
  | [] => []
  | b :: bs => b.lines ++ blockLines bs

/-- The facets of the blocks that have exactly three `vertex` lines. -/
def blockFacets : List AsciiBlock → List Facet
  | [] => []
  | b :: bs =>
    if b.vertices.length = 3 then b.facet :: blockFacets bs else blockFacets bs

/-! ## Examples of input -/

/-- The one-facet ASCII file of the spec. -/
def exampleAscii : List Byte :=
  str ("solid x\nfacet normal 0 0 1\nouter loop\nvertex 0 0 0\nvertex 1 0 0\n"
    ++ "vertex 0 1 0\nendloop\nendfacet\nendsolid x\n")

/-- The facet block of `exampleAscii`. -/
def exampleBlock : AsciiBlock where
  lead := []
  normalLine := str "facet normal 0 0 1"
  normal := ⟨Float32.zero, Float32.zero, Float32.one⟩
  body := [(str "outer loop", none),
    (str "vertex 0 0 0", some ⟨Float32.zero, Float32.zero, Float32.zero⟩),
    (str "vertex 1 0 0", some ⟨Float32.one, Float32.zero, Float32.zero⟩),
    (str "vertex 0 1 0", some ⟨Float32.zero, Float32.one, Float32.zero⟩),
    (str "endloop", none)]
  endLine := str "endfacet"

/-- The facet of `exampleAscii`: normal (0,0,1), vertices (0,0,0), (1,0,0), (0,1,0). -/
def exampleFacet : Facet :=
  ⟨⟨Float32.zero, Float32.zero, Float32.one⟩, ⟨Float32.zero, Float32.zero, Float32.zero⟩,
    ⟨Float32.one, Float32.zero, Float32.zero⟩, ⟨Float32.zero, Float32.one, Float32.zero⟩⟩

/-- A second facet block, with normal (0,1,0) and vertices (1,1,1), (2,0,0), (0,3,0). -/
def exampleBlock2 : AsciiBlock where
  lead := []
  normalLine := str "  facet normal 0 1 0"
  normal := ⟨Float32.zero, Float32.one, Float32.zero⟩
  body := [(str "    outer loop", none),
    (str "      vertex 1 1 1", some ⟨Float32.one, Float32.one, Float32.one⟩),
    (str "      vertex 2 0 0", some ⟨⟨0x40000000⟩, Float32.zero, Float32.zero⟩),
    (str "      vertex 0 3 0", some ⟨Float32.zero, ⟨0x40400000⟩, Float32.zero⟩),
    (str "    endloop", none)]
  endLine := str "  endfacet"

/-- A facet block with only two `vertex` lines. -/
def exampleShortBlock : AsciiBlock where
  lead := []
  normalLine := str "facet normal 1 0 0"
  normal := ⟨Float32.one, Float32.zero, Float32.zero⟩
  body := [(str "outer loop", none),
    (str "vertex 5 5 5", some ⟨⟨0x40A00000⟩, ⟨0x40A00000⟩, ⟨0x40A00000⟩⟩),
    (str "vertex 6 6 6", some ⟨⟨0x40C00000⟩, ⟨0x40C00000⟩, ⟨0x40C00000⟩⟩),
    (str "endloop", none)]
  endLine := str "endfacet"

/-- An ASCII file with a two-vertex block between two complete blocks. -/
def exampleAsciiShort : List Byte :=
  str ("solid x\nfacet normal 0 0 1\nouter loop\nvertex 0 0 0\nvertex 1 0 0\n"
    ++ "vertex 0 1 0\nendloop\nendfacet\n"
    ++ "facet normal 1 0 0\nouter loop\nvertex 5 5 5\nvertex 6 6 6\nendloop\nendfacet\n"
    ++ "  facet normal 0 1 0\n    outer loop\n      vertex 1 1 1\n      vertex 2 0 0\n"
    ++ "      vertex 0 3 0\n    endloop\n  endfacet\nendsolid x\n")

/-! ## Vocabulary for stating properties of binary input -/

/-- The unsigned 32-bit little-endian value of four bytes. -/
def le32 (b0 b1 b2 b3 : Byte) : Nat :=
  b0.val + 256 * b1.val + 65536 * b2.val + 16777216 * b3.val

/-- The `float` stored at offset `i` of a record. -/
def floatAt (r : List Byte) (i : Nat) : Float32 :=
  Float32.ofBytes ((r.drop i).take 4)

/-- The three `float`s stored from offset `i` of a record. -/
def vertexAt (r : List Byte) (i : Nat) : GLVertex :=
  ⟨floatAt r i, floatAt r (i + 4), floatAt r (i + 8)⟩

/-- The facet that a 50-byte record encodes: normal at offset 0, vertices at offsets 12,
24 and 36 (the bytes 48 and 49 are the attribute field). -/
def recordFacet (r : List Byte) : Facet :=
  ⟨vertexAt r 0, vertexAt r 12, vertexAt r 24, vertexAt r 36⟩

/-- The records, one after the other. -/
def concatRecords : List (List Byte) → List Byte
  | [] => []
  | r :: rs => r ++ concatRecords rs

/-- A binary file that declares 256 triangles and holds 256 records (all bytes of the
header and of the records are zero). -/
def binary256 : List Byte :=
  List.replicate 80 0 ++ [0, 1, 0, 0] ++ List.replicate (256 * 50) 0

/-- A binary file that declares 2 triangles and ends 3 bytes into the second record. -/
def binaryTruncated : List Byte :=
  List.replicate 80 0 ++ [2, 0, 0, 0] ++ List.replicate 50 1 ++ [3, 3, 3]

/-! ## Vocabulary for stating properties of structured input -/

/-- The Python triple of the components of a vertex. -/
def pyTriple (v : GLVertex) : PyObj :=
  .seq [.num v.x, .num v.y, .num v.z]

/-- A record of the outer sequence: four triples, or a sequence of another length with
any content. -/
inductive MeshRecord where
  | four (n a b c : GLVertex)
  | other (items : List PyObj)

/-- The Python object of a record. -/
def MeshRecord.toPy : MeshRecord → PyObj
  | .four n a b c => .seq [pyTriple n, pyTriple a, pyTriple b, pyTriple c]
  | .other items => .seq items

/-- The facet of a record with four triples: `Facet(element 0, element 1, element 2,
element 3)`; no facet for another record. -/
def MeshRecord.facet : MeshRecord → Option Facet
  | .four n a b c => some ⟨n, a, b, c⟩
  | .other _ => none

/-- Records of a length other than 4 are of a length other than 4. -/
def MeshRecord.wf : MeshRecord → Prop
  | .four _ _ _ _ => True
  | .other items => items.length ≠ 4

/-! ## Further vocabulary -/

/-- The normal that is pending after the blocks: that of the last block, or `n` when
there is no block. -/
def lastNormal (n : GLVertex) : List AsciiBlock → GLVertex
  | [] => n
  | b :: bs => lastNormal b.normal bs

/-- The four bytes of a `float` in memory order (little-endian). -/
def encodeFloat (f : Float32) : List Byte :=
  [Fin.ofNat f.bits, Fin.ofNat (f.bits / 256), Fin.ofNat (f.bits / 65536),
    Fin.ofNat (f.bits / 16777216)]

/-- The twelve bytes of a vertex: x, y, z. -/
def encodeVertex (v : GLVertex) : List Byte :=
  encodeFloat v.x ++ encodeFloat v.y ++ encodeFloat v.z

/-- The 50-byte binary STL record of a facet: normal, three vertices, two attribute
bytes. -/
def encodeFacet (f : Facet) (attr : Byte × Byte) : List Byte :=
  encodeVertex f.normal ++ encodeVertex f.v1 ++ encodeVertex f.v2 ++ encodeVertex f.v3 ++
    [attr.1, attr.2]

/-- The binary STL file of the spec: an 80-byte header, the 4-byte little-endian count,
then one record for each facet. -/
def encodeStl (hdr : List Byte) (items : List (Facet × (Byte × Byte))) : List Byte :=
  hdr ++ Fin.ofNat items.length :: Fin.ofNat (items.length / 256) ::
    Fin.ofNat (items.length / 65536) :: Fin.ofNat (items.length / 16777216) ::
    concatRecords (items.map (fun p => encodeFacet p.1 p.2))

/-- A `float` pattern has 32 bits. -/
def Float32.wf (f : Float32) : Prop := f.bits < 2 ^ 32

/-- All components of a vertex are 32-bit patterns. -/
def GLVertex.wf (v : GLVertex) : Prop := v.x.wf ∧ v.y.wf ∧ v.z.wf

/-- All components of a facet are 32-bit patterns. -/
def Facet.wf (f : Facet) : Prop := f.normal.wf ∧ f.v1.wf ∧ f.v2.wf ∧ f.v3.wf

/-- A facet whose first normal bytes spell `soli` and `d`. -/
def solidFacet : Facet :=
  ⟨⟨⟨0x696C6F73⟩, ⟨0x64⟩, ⟨0⟩⟩, GLVertex.default, GLVertex.default, GLVertex.default⟩

/-- A binary record given by its 48 geometry bytes and its two attribute bytes. -/
def attrRecord (body : List Byte) (attr : Byte × Byte) : List Byte :=
  body ++ [attr.1, attr.2]

/-- What the `vertex` test leaves pending, told from the line alone. -/
def pendingAfterVertex (line : List Byte) (vs : List GLVertex) (pv : GLVertex) :
    List GLVertex :=
  if contains line kwVertex then vs ++ [pv] else vs

/-- The normal after the `facet normal` test, told from the line alone. -/
def normalAfterLine (line : List Byte) (n pn : GLVertex) : GLVertex :=
  if contains line kwFacetNormal then pn else n

/-- The store after the `endfacet` test, told from the line alone. -/
def storeAfterLine (line : List Byte) (n : GLVertex) (vs : List GLVertex)
    (fs : List Facet) : List Facet :=
  if contains line kwEndfacet = true ∧ vs.length = 3 then
    fs ++ [⟨n, vs.getD 0 GLVertex.default, vs.getD 1 GLVertex.default,
      vs.getD 2 GLVertex.default⟩]
  else fs

/-- An ASCII file with a vertex line whose second token is `1.0abc`. -/
def exampleAsciiPrefix : List Byte :=
  str ("solid x\nfacet normal 0 0 1\nouter loop\nvertex 1 1.0abc 3\nvertex 1 0 0\n"
    ++ "vertex 0 1 0\nendloop\nendfacet\nendsolid x\n")

/-! ## Lemmas: lines -/

theorem splitLine_append (l rest : List Byte) (h : nl ∉ l) :
    splitLine (l ++ nl :: rest) = (l, rest) := by
  induction l with
  | nil => simp [splitLine]
  | cons a l ih =>
    have ha : a ≠ nl := fun e => h (by simp [e])
    have hl : nl ∉ l := fun e => h (by simp [e])
    simp [splitLine, ha, ih hl]

theorem splitLine_no_nl (l : List Byte) (h : nl ∉ l) : splitLine l = (l, []) := by
  induction l with
  | nil => simp [splitLine]
  | cons a l ih =>
    have ha : a ≠ nl := fun e => h (by simp [e])
    have hl : nl ∉ l := fun e => h (by simp [e])
    simp [splitLine, ha, ih hl]

theorem splitLine_fst (bytes : List Byte) :
    (splitLine bytes).1 = bytes.takeWhile (fun b => decide (b ≠ nl)) := by
  induction bytes with
  | nil => simp [splitLine]
  | cons a l ih =>
    by_cases ha : a = nl
    · simp [splitLine, ha]
    · simp [splitLine, ha, ih]

theorem splitLine_snd (bytes : List Byte) :
    (splitLine bytes).2 = (bytes.dropWhile (fun b => decide (b ≠ nl))).drop 1 := by
  induction bytes with
  | nil => simp [splitLine]
  | cons a l ih =>
    by_cases ha : a = nl
    · simp [splitLine, ha]
    · simp [splitLine, ha, ih]

theorem readLinesAux_append (l rest cur : List Byte) (h : nl ∉ l) :
    readLinesAux (l ++ nl :: rest) cur = (cur.reverse ++ l) :: readLinesAux rest [] := by
  induction l generalizing cur with
  | nil => simp [readLinesAux]
  | cons a l ih =>
    have ha : a ≠ nl := fun e => h (by simp [e])
    have hl : nl ∉ l := fun e => h (by simp [e])
    simp [readLinesAux, ha, ih (a :: cur) hl]

theorem readLinesAux_no_nl (l cur : List Byte) (h : nl ∉ l) (hne : cur ++ l ≠ []) :
    readLinesAux l cur = [cur.reverse ++ l] := by
  induction l generalizing cur with
  | nil =>
    cases cur with
    | nil => simp at hne
    | cons c cur => simp [readLinesAux]
  | cons a l ih =>
    have ha : a ≠ nl := fun e => h (by simp [e])
    have hl : nl ∉ l := fun e => h (by simp [e])
    simp [readLinesAux, ha, ih (a :: cur) hl]

theorem readLinesAux_cur (bytes cur : List Byte) (hb : bytes ≠ []) :
    readLinesAux bytes cur =
      (cur.reverse ++ (splitLine bytes).1) :: readLinesAux (splitLine bytes).2 [] := by
  induction bytes generalizing cur with
  | nil => exact absurd rfl hb
  | cons a l ih =>
    by_cases ha : a = nl
    · simp [readLinesAux, splitLine, ha]
    · cases l with
      | nil => simp [readLinesAux, splitLine, ha]
      | cons b l =>
        have e := ih (a :: cur) (by simp)
        simp only [readLinesAux, splitLine, ha, if_false] at e ⊢
        rw [e]
        simp

/-- The list `readLines` is what repeated `getline` delivers: nothing when `getline` fails,
otherwise the line it gives followed by the lines of the stream it leaves. -/
theorem readLines_eq_getline (s : IfStream) :
    readLines s.rest =
      match s.getline with
      | none => []
      | some (line, s1) => line :: readLines s1.rest := by
  cases hs : s.rest with
  | nil => simp [IfStream.getline, hs, readLines, readLinesAux]
  | cons b bs =>
    simp only [IfStream.getline, hs, readLines]
    rw [readLinesAux_cur (b :: bs) [] (by simp)]
    simp

theorem readLines_line (l rest : List Byte) (h : nl ∉ l) :
    readLines (l ++ nl :: rest) = l :: readLines rest := by
  simp [readLines, readLinesAux_append l rest [] h]

theorem readLines_unlines (ls : List (List Byte)) (rest : List Byte)
    (h : ∀ l ∈ ls, nl ∉ l) :
    readLines (unlines ls ++ rest) = ls ++ readLines rest := by
  induction ls with
  | nil => simp [unlines]
  | cons l ls ih =>
    have h1 : nl ∉ l := h l (by simp)
    have h2 : ∀ l ∈ ls, nl ∉ l := fun x hx => h x (by simp [hx])
    simp only [unlines, List.append_assoc, List.cons_append]
    rw [readLines_line l _ h1, ih h2]

/-- A last line `l` that is followed by the end of the file or by a newline. -/
theorem readLines_last (l rest : List Byte) (h : nl ∉ l) (hne : l ≠ [])
    (hrest : ∀ b, rest.head? = some b → b = nl) :
    ∃ more, readLines (l ++ rest) = l :: more := by
  cases rest with
  | nil =>
    refine ⟨[], ?_⟩
    simp [readLines, readLinesAux_no_nl l [] h (by simpa using hne)]
  | cons b rest =>
    have hb : b = nl := hrest b (by simp)
    subst hb
    exact ⟨readLines rest, readLines_line l rest h⟩

/-! ## Lemmas: the ASCII loop -/

theorem processLine_plain (env : Env) (l : List Byte) (st : ParseState) (fs : List Facet)
    (h : isPlainLine l) : processLine env l st fs = .next st fs := by
  obtain ⟨h1, h2, h3, h4⟩ := h
  simp [processLine, stepNormal, stepVertex, stepEndfacet, h1, h2, h3, h4]

theorem processLine_normal (env : Env) (l : List Byte) (n : GLVertex) (st : ParseState)
    (fs : List Facet) (h : isNormalLine env l n) :
    processLine env l st fs = .next ⟨n, st.vertices⟩ fs := by
  obtain ⟨h1, h2, h3, h4, h5⟩ := h
  simp [processLine, stepNormal, stepVertex, stepEndfacet, h1, h2, h3, h4, h5]

theorem processLine_vertex (env : Env) (l : List Byte) (v : GLVertex) (st : ParseState)
    (fs : List Facet) (h : isVertexLine env l v) :
    processLine env l st fs = .next ⟨st.n, st.vertices ++ [v]⟩ fs := by
  obtain ⟨h1, h2, h3, h4, h5⟩ := h
  simp [processLine, stepNormal, stepVertex, stepEndfacet, h1, h2, h3, h4, h5]

theorem processLine_endfacet (env : Env) (l : List Byte) (st : ParseState)
    (fs : List Facet) (h : isEndfacetLine l) :
    processLine env l st fs =
      .next ⟨st.n, []⟩
        (if st.vertices.length = 3 then
          fs ++ [⟨st.n, st.vertices.getD 0 GLVertex.default,
            st.vertices.getD 1 GLVertex.default, st.vertices.getD 2 GLVertex.default⟩]
         else fs) := by
  obtain ⟨h1, h2, h3, h4⟩ := h
  obtain ⟨n, vs⟩ := st
  match vs with
  | [] => simp [processLine, stepNormal, stepVertex, stepEndfacet, h1, h2, h3, h4]
  | [_] => simp [processLine, stepNormal, stepVertex, stepEndfacet, h1, h2, h3, h4]
  | [_, _] => simp [processLine, stepNormal, stepVertex, stepEndfacet, h1, h2, h3, h4]
  | [_, _, _] => simp [processLine, stepNormal, stepVertex, stepEndfacet, h1, h2, h3, h4]
  | _ :: _ :: _ :: _ :: _ =>
    simp [processLine, stepNormal, stepVertex, stepEndfacet, h1, h2, h3, h4]

/-- An `endsolid` line met with no pending vertex ends the load with the store as it is,
whatever else the line matches, as long as `std::stof` does not throw on it. -/
theorem processLine_endsolid (env : Env) (l : List Byte) (n : GLVertex) (fs : List Facet)
    (h : contains l kwEndsolid = true) (hp : lineParses env l) :
    processLine env l ⟨n, []⟩ fs = .done fs := by
  obtain ⟨hp1, hp2⟩ := hp
  have e1 : ∃ n1, stepNormal env l ⟨n, []⟩ = some ⟨n1, []⟩ := by
    unfold stepNormal
    by_cases c : contains l kwFacetNormal = true
    · have := hp1 c
      obtain ⟨w, hw⟩ := Option.isSome_iff_exists.mp this
      exact ⟨w, by simp [c, hw]⟩
    · exact ⟨n, by simp [c]⟩
  obtain ⟨n1, e1⟩ := e1
  have e2 : ∃ vs, stepVertex env l ⟨n1, []⟩ = some ⟨n1, vs⟩ ∧ vs.length ≤ 1 := by
    unfold stepVertex
    by_cases c : contains l kwVertex = true
    · have := hp2 c
      obtain ⟨w, hw⟩ := Option.isSome_iff_exists.mp this
      exact ⟨[w], by simp [c, hw]⟩
    · exact ⟨[], by simp [c]⟩
  obtain ⟨vs, e2, hvs⟩ := e2
  have e3 : (stepEndfacet l ⟨n1, vs⟩ fs).2 = fs := by
    unfold stepEndfacet
    match vs, hvs with
    | [], _ => by_cases c : contains l kwEndfacet = true <;> simp [c]
    | [_], _ => by_cases c : contains l kwEndfacet = true <;> simp [c]
  simp [processLine, e1, e2, e3, h]

theorem asciiLoop_plain (env : Env) (ls more : List (List Byte)) (st : ParseState)
    (fs : List Facet) (h : ∀ l ∈ ls, isPlainLine l) :
    asciiLoop env (ls ++ more) st fs = asciiLoop env more st fs := by
  induction ls with
  | nil => rfl
  | cons l ls ih =>
    have h1 := h l (by simp)
    have h2 : ∀ x ∈ ls, isPlainLine x := fun x hx => h x (by simp [hx])
    simp [asciiLoop, processLine_plain env l st fs h1, ih h2]

theorem asciiLoop_body (env : Env) (body : List (List Byte × Option GLVertex))
    (more : List (List Byte)) (n : GLVertex) (vs : List GLVertex) (fs : List Facet)
    (h : ∀ p ∈ body, match p.2 with
      | some v => isVertexLine env p.1 v
      | none => isPlainLine p.1) :
    asciiLoop env (body.map Prod.fst ++ more) ⟨n, vs⟩ fs =
      asciiLoop env more ⟨n, vs ++ body.filterMap Prod.snd⟩ fs := by
  induction body generalizing vs with
  | nil => simp
  | cons p body ih =>
    have h1 := h p (by simp)
    have h2 : ∀ q ∈ body, match q.2 with
      | some v => isVertexLine env q.1 v
      | none => isPlainLine q.1 := fun q hq => h q (by simp [hq])
    obtain ⟨l, o⟩ := p
    cases o with
    | none =>
      simp only at h1
      simp [asciiLoop, processLine_plain env l _ fs h1, ih _ h2]
    | some v =>
      simp only at h1
      simp [asciiLoop, processLine_vertex env l v _ fs h1, ih _ h2]

/-- One well-formed block, met with no pending vertex, stores its facet exactly when it
has three `vertex` lines, and leaves no pending vertex. -/
theorem asciiLoop_block (env : Env) (b : AsciiBlock) (more : List (List Byte))
    (n : GLVertex) (fs : List Facet) (h : b.wf env) :
    asciiLoop env (b.lines ++ more) ⟨n, []⟩ fs =
      asciiLoop env more ⟨b.normal, []⟩
        (if b.vertices.length = 3 then fs ++ [b.facet] else fs) := by
  obtain ⟨hlead, hn, hbody, hend, _⟩ := h
  unfold AsciiBlock.lines
  rw [List.append_assoc, asciiLoop_plain env _ _ _ _ hlead]
  simp only [List.cons_append, List.append_assoc]
  rw [asciiLoop]
  simp only [processLine_normal env _ _ _ fs hn]
  rw [asciiLoop_body env _ _ _ _ _ hbody]
  simp only [List.cons_append, List.nil_append]
  rw [asciiLoop]
  simp only [processLine_endfacet env _ _ _ hend]
  rfl

theorem asciiLoop_blocks (env : Env) (bs : List AsciiBlock) (more : List (List Byte))
    (n : GLVertex) (fs : List Facet) (h : ∀ b ∈ bs, b.wf env) :
    ∃ n1, asciiLoop env (blockLines bs ++ more) ⟨n, []⟩ fs =
      asciiLoop env more ⟨n1, []⟩ (fs ++ blockFacets bs) := by
  induction bs generalizing n fs with
  | nil => exact ⟨n, by simp [blockLines, blockFacets]⟩
  | cons b bs ih =>
    have h1 := h b (by simp)
    have h2 : ∀ x ∈ bs, x.wf env := fun x hx => h x (by simp [hx])
    simp only [blockLines, List.append_assoc]
    rw [asciiLoop_block env b _ n fs h1]
    obtain ⟨n1, e⟩ := ih b.normal (if b.vertices.length = 3 then fs ++ [b.facet] else fs) h2
    refine ⟨n1, ?_⟩
    rw [e]
    by_cases c : b.vertices.length = 3 <;> simp [blockFacets, c]

theorem blockFacets_eq_map (bs : List AsciiBlock) (h : ∀ b ∈ bs, b.vertices.length = 3) :
    blockFacets bs = bs.map AsciiBlock.facet := by
  induction bs with
  | nil => rfl
  | cons b bs ih =>
    have h1 := h b (by simp)
    have h2 : ∀ x ∈ bs, x.vertices.length = 3 := fun x hx => h x (by simp [hx])
    simp [blockFacets, h1, ih h2]

theorem blockFacets_append (as bs : List AsciiBlock) :
    blockFacets (as ++ bs) = blockFacets as ++ blockFacets bs := by
  induction as with
  | nil => rfl
  | cons a as ih =>
    by_cases c : a.vertices.length = 3 <;> simp [blockFacets, c, ih]

theorem blockLines_nl (bs : List AsciiBlock) (env : Env) (h : ∀ b ∈ bs, b.wf env) :
    ∀ l ∈ blockLines bs, nl ∉ l := by
  induction bs with
  | nil => simp [blockLines]
  | cons b bs ih =>
    have h1 := h b (by simp)
    have h2 : ∀ x ∈ bs, x.wf env := fun x hx => h x (by simp [hx])
    intro l hl
    simp only [blockLines, List.mem_append] at hl
    rcases hl with hl | hl
    · exact h1.2.2.2.2 l hl
    · exact ih h2 l hl

/-- Without an `endsolid` line, and with no throw, the loop runs to the end of the stream
and returns `false`; it only appends to the store, and appends nothing when no line matches
`endfacet`. -/
theorem asciiLoop_unterminated (env : Env) (ls : List (List Byte)) (st : ParseState)
    (fs : List Facet)
    (h : ∀ l ∈ ls, contains l kwEndsolid = false ∧ lineParses env l) :
    ∃ extra, asciiLoop env ls st fs = (.returned false, fs ++ extra) ∧
      ((∀ l ∈ ls, contains l kwEndfacet = false) → extra = []) := by
  induction ls generalizing st fs with
  | nil => exact ⟨[], by simp [asciiLoop]⟩
  | cons l ls ih =>
    obtain ⟨hes, hp1, hp2⟩ := h l (by simp)
    have h2 : ∀ x ∈ ls, contains x kwEndsolid = false ∧ lineParses env x :=
      fun x hx => h x (by simp [hx])
    have e1 : ∃ st1, stepNormal env l st = some st1 := by
      unfold stepNormal
      by_cases c : contains l kwFacetNormal = true
      · obtain ⟨w, hw⟩ := Option.isSome_iff_exists.mp (hp1 c)
        exact ⟨⟨w, st.vertices⟩, by simp [c, hw]⟩
      · exact ⟨st, by simp [c]⟩
    obtain ⟨st1, e1⟩ := e1
    have e2 : ∃ st2, stepVertex env l st1 = some st2 := by
      unfold stepVertex
      by_cases c : contains l kwVertex = true
      · obtain ⟨w, hw⟩ := Option.isSome_iff_exists.mp (hp2 c)
        exact ⟨⟨st1.n, st1.vertices ++ [w]⟩, by simp [c, hw]⟩
      · exact ⟨st1, by simp [c]⟩
    obtain ⟨st2, e2⟩ := e2
    have e3 : ∃ add, (stepEndfacet l st2 fs).2 = fs ++ add ∧
        (contains l kwEndfacet = false → add = []) := by
      unfold stepEndfacet
      by_cases c : contains l kwEndfacet = true
      · simp only [c, if_true]
        split
        · exact ⟨_, rfl, by simp⟩
        · exact ⟨[], by simp, by simp⟩
      · exact ⟨[], by simp [c], by simp⟩
    obtain ⟨add, e3, hadd⟩ := e3
    obtain ⟨extra, e4, hextra⟩ := ih (stepEndfacet l st2 fs).1 (stepEndfacet l st2 fs).2 h2
    refine ⟨add ++ extra, ?_, ?_⟩
    · simp only [asciiLoop, processLine, e1, e2, hes]
      simp only [Bool.false_eq_true, if_false]
      rw [e4, e3]
      simp
    · intro hno
      have a1 := hadd (hno l (by simp))
      have a2 := hextra (fun x hx => hno x (by simp [hx]))
      simp [a1, a2]

/-- A file whose first line has `solid` goes to the ASCII loop, which starts at the second
line. -/
theorem loadStl_of_solid (env : Env) (bytes : List Byte) (old : List Facet)
    (hsolid : contains (firstLine bytes) kwSolid = true) :
    loadStl env (some bytes) old =
      asciiLoop env (readLines (afterFirstLine bytes)) ParseState.init old := by
  unfold firstLine at hsolid
  unfold loadStl IfStream.getline IfStream.ofBytes afterFirstLine
  cases bytes with
  | nil => simp [contains, kwSolid, str] at hsolid
  | cons b bs =>
    simp only
    rw [splitLine_fst, splitLine_snd]
    simp only [hsolid, if_true]

/-- A file whose first line lacks `solid` goes to the binary reader, which gets the whole
file. -/
theorem loadStl_of_not_solid (env : Env) (bytes : List Byte) (old : List Facet)
    (hsolid : contains (firstLine bytes) kwSolid = false) :
    loadStl env (some bytes) old = loadStlBinary env bytes old := by
  unfold firstLine at hsolid
  unfold loadStl IfStream.getline IfStream.ofBytes
  cases bytes with
  | nil => rfl
  | cons b bs =>
    simp only
    rw [splitLine_fst]
    simp only [hsolid, Bool.false_eq_true, if_false]

theorem firstLine_append (first rest : List Byte) (h : nl ∉ first) :
    firstLine (first ++ nl :: rest) = first := by
  rw [firstLine, ← splitLine_fst, splitLine_append first rest h]

theorem afterFirstLine_append (first rest : List Byte) (h : nl ∉ first) :
    afterFirstLine (first ++ nl :: rest) = rest := by
  rw [afterFirstLine, ← splitLine_snd, splitLine_append first rest h]

/-- Well-formed blocks, then lines that match no keyword, then an `endsolid` line: the load
succeeds and appends the facets of the blocks with three `vertex` lines. -/
theorem loadStl_blocks_endsolid (env : Env) (first : List Byte) (blocks : List AsciiBlock)
    (trail : List (List Byte)) (endLine rest : List Byte) (old : List Facet)
    (hfirst : contains first kwSolid = true) (hfnl : nl ∉ first)
    (hblocks : ∀ b ∈ blocks, b.wf env)
    (htrail : ∀ l ∈ trail, isPlainLine l ∧ nl ∉ l)
    (hend : contains endLine kwEndsolid = true) (hendp : lineParses env endLine)
    (hendnl : nl ∉ endLine) (hrest : ∀ b, rest.head? = some b → b = nl) :
    loadStl env
        (some (first ++ nl :: (unlines (blockLines blocks ++ trail) ++ (endLine ++ rest))))
        old =
      (.returned true, old ++ blockFacets blocks) := by
  have hne : endLine ≠ [] := by
    intro e
    rw [e] at hend
    simp [contains, kwEndsolid, str] at hend
  rw [loadStl_of_solid env _ old (by rw [firstLine_append _ _ hfnl]; exact hfirst),
    afterFirstLine_append _ _ hfnl]
  have hlines : ∀ l ∈ blockLines blocks ++ trail, nl ∉ l := by
    intro l hl
    rcases List.mem_append.mp hl with hl | hl
    · exact blockLines_nl blocks env hblocks l hl
    · exact (htrail l hl).2
  rw [readLines_unlines _ _ hlines]
  obtain ⟨more, hmore⟩ := readLines_last endLine rest hendnl hne hrest
  rw [hmore, List.append_assoc]
  obtain ⟨n1, e⟩ := asciiLoop_blocks env blocks (trail ++ endLine :: more)
    ParseState.init.n old hblocks
  have e0 : ParseState.init = ⟨ParseState.init.n, []⟩ := rfl
  rw [e0, e, asciiLoop_plain env trail _ _ _ (fun l hl => (htrail l hl).1)]
  simp [asciiLoop, processLine_endsolid env endLine n1 _ hend hendp]

set_option maxRecDepth 10000 in
theorem exampleBlock_wf : exampleBlock.wf sampleEnv := by
  refine ⟨?_, ?_, ?_, ?_, ?_⟩
  · simp [exampleBlock]
  · unfold isNormalLine; decide
  · intro p hp
    simp only [exampleBlock, List.mem_cons, List.mem_singleton, List.not_mem_nil,
      or_false] at hp
    rcases hp with rfl | rfl | rfl | rfl | rfl
    · show isPlainLine _; unfold isPlainLine; decide
    · show isVertexLine _ _ _; unfold isVertexLine; decide
    · show isVertexLine _ _ _; unfold isVertexLine; decide
    · show isVertexLine _ _ _; unfold isVertexLine; decide
    · show isPlainLine _; unfold isPlainLine; decide
  · unfold isEndfacetLine; decide
  · decide

/-! ## Theorems about the ASCII path -/

/-- C1: an ASCII file whose first line has `solid`, followed by N complete facet blocks
(a `facet normal` line, three `vertex` lines, an `endfacet` line, with lines that match no
keyword anywhere between) and then a line with `endsolid`, loaded into an empty store:
the load returns `true` and the store holds exactly the N facets of the blocks, in file
order, each with the normal of its `facet normal` line and its vertices in line order. -/
theorem C1_ascii_valid_input (env : Env) (first : List Byte) (blocks : List AsciiBlock)
    (trail : List (List Byte)) (endLine rest : List Byte)
    (hfirst : contains first kwSolid = true) (hfnl : nl ∉ first)
    (hblocks : ∀ b ∈ blocks, b.wf env ∧ b.vertices.length = 3)
    (htrail : ∀ l ∈ trail, isPlainLine l ∧ nl ∉ l)
    (hend : contains endLine kwEndsolid = true) (hendp : lineParses env endLine)
    (hendnl : nl ∉ endLine) (hrest : ∀ b, rest.head? = some b → b = nl) :
    loadStl env
        (some (first ++ nl :: (unlines (blockLines blocks ++ trail) ++ (endLine ++ rest))))
        [] =
      (.returned true, blocks.map AsciiBlock.facet) ∧
    (blocks.map AsciiBlock.facet).length = blocks.length := by
  refine ⟨?_, by simp⟩
  rw [loadStl_blocks_endsolid env first blocks trail endLine rest [] hfirst hfnl
    (fun b hb => (hblocks b hb).1) htrail hend hendp hendnl hrest,
    blockFacets_eq_map blocks (fun b hb => (hblocks b hb).2)]
  simp

set_option maxRecDepth 10000 in
/-- C1, witness: the one-facet example of the spec gives exactly one facet with normal
(0,0,1) and vertices (0,0,0), (1,0,0), (0,1,0). -/
theorem C1_ascii_valid_input_witness :
    loadStl sampleEnv (some exampleAscii) [] = (.returned true, [exampleFacet]) := by
  have h := (C1_ascii_valid_input sampleEnv (str "solid x") [exampleBlock] []
    (str "endsolid x") [nl] (by decide) (by decide)
    (by intro b hb; rw [List.mem_singleton] at hb; subst hb; exact ⟨exampleBlock_wf, by decide⟩)
    (by simp) (by decide) (by unfold lineParses; decide) (by decide) (by simp)).1
  have e : str "solid x" ++ nl :: (unlines (blockLines [exampleBlock] ++ []) ++
      (str "endsolid x" ++ [nl])) = exampleAscii := by decide
  rw [e] at h
  exact h

/-- C5: an ASCII file whose first line has `solid` and in which no later line has
`endsolid`, with no throw from `std::stof`: the load returns `false` when the stream is
exhausted, and the facets of the complete three-vertex blocks read before that are in the
store, in file order, after what the store held (the lines after the blocks can only add
facets behind them, and add none when none of them has `endfacet`). -/
theorem C5_ascii_unterminated (env : Env) (bytes : List Byte) (blocks : List AsciiBlock)
    (tail : List Byte) (old : List Facet)
    (hfirst : contains (firstLine bytes) kwSolid = true)
    (hrest : afterFirstLine bytes = unlines (blockLines blocks) ++ tail)
    (hblocks : ∀ b ∈ blocks, b.wf env ∧ b.vertices.length = 3)
    (htail : ∀ l ∈ readLines tail, contains l kwEndsolid = false ∧ lineParses env l) :
    ∃ extra,
      loadStl env (some bytes) old =
        (.returned false, old ++ blocks.map AsciiBlock.facet ++ extra) ∧
      ((∀ l ∈ readLines tail, contains l kwEndfacet = false) → extra = []) := by
  rw [loadStl_of_solid env bytes old hfirst, hrest,
    readLines_unlines _ _ (blockLines_nl blocks env (fun b hb => (hblocks b hb).1))]
  obtain ⟨n1, e⟩ := asciiLoop_blocks env blocks (readLines tail) ParseState.init.n old
    (fun b hb => (hblocks b hb).1)
  have e0 : ParseState.init = ⟨ParseState.init.n, []⟩ := rfl
  rw [e0, e, blockFacets_eq_map blocks (fun b hb => (hblocks b hb).2)]
  exact asciiLoop_unterminated env (readLines tail) _ _ htail

set_option maxRecDepth 10000 in
/-- C5, witness: the example of the spec cut off after its `endfacet` line, loaded into a
store that holds one facet already. -/
theorem C5_ascii_unterminated_witness :
    ∃ extra,
      loadStl sampleEnv
          (some (str ("solid x\nfacet normal 0 0 1\nouter loop\nvertex 0 0 0\nvertex 1 0 0\n"
            ++ "vertex 0 1 0\nendloop\nendfacet\nfacet normal 0 1 0\nvertex 1 1 1")))
          [exampleFacet] =
        (.returned false, [exampleFacet] ++ [exampleBlock].map AsciiBlock.facet ++ extra) ∧
      ((∀ l ∈ readLines (str "facet normal 0 1 0\nvertex 1 1 1"),
        contains l kwEndfacet = false) → extra = []) :=
  C5_ascii_unterminated sampleEnv _ [exampleBlock] (str "facet normal 0 1 0\nvertex 1 1 1")
    [exampleFacet] (by decide) (by decide)
    (by intro b hb; rw [List.mem_singleton] at hb; subst hb; exact ⟨exampleBlock_wf, by decide⟩)
    (by unfold lineParses; decide)

/-- C6: in an ASCII file, a block whose number of `vertex` lines is not 3 adds no facet;
the blocks before and after it, each with three `vertex` lines, are stored with their own
normal and vertices, and the load returns `true` at the `endsolid` line. -/
theorem C6_ascii_malformed_block_skipped (env : Env) (first : List Byte)
    (pre : List AsciiBlock) (bad : AsciiBlock) (post : List AsciiBlock)
    (trail : List (List Byte)) (endLine rest : List Byte) (old : List Facet)
    (hfirst : contains first kwSolid = true) (hfnl : nl ∉ first)
    (hpre : ∀ b ∈ pre, b.wf env ∧ b.vertices.length = 3)
    (hbad : bad.wf env ∧ bad.vertices.length ≠ 3)
    (hpost : ∀ b ∈ post, b.wf env ∧ b.vertices.length = 3)
    (htrail : ∀ l ∈ trail, isPlainLine l ∧ nl ∉ l)
    (hend : contains endLine kwEndsolid = true) (hendp : lineParses env endLine)
    (hendnl : nl ∉ endLine) (hrest : ∀ b, rest.head? = some b → b = nl) :
    loadStl env
        (some (first ++ nl ::
          (unlines (blockLines (pre ++ bad :: post) ++ trail) ++ (endLine ++ rest))))
        old =
      (.returned true, old ++ pre.map AsciiBlock.facet ++ post.map AsciiBlock.facet) := by
  have hwf : ∀ b ∈ pre ++ bad :: post, b.wf env := by
    intro b hb
    rcases List.mem_append.mp hb with hb | hb
    · exact (hpre b hb).1
    · rcases List.mem_cons.mp hb with hb | hb
      · rw [hb]; exact hbad.1
      · exact (hpost b hb).1
  rw [loadStl_blocks_endsolid env first _ trail endLine rest old hfirst hfnl hwf htrail hend
    hendp hendnl hrest, blockFacets_append,
    blockFacets_eq_map pre (fun b hb => (hpre b hb).2)]
  simp [blockFacets, hbad.2, blockFacets_eq_map post (fun b hb => (hpost b hb).2)]

set_option maxRecDepth 10000 in
theorem exampleBlock2_wf : exampleBlock2.wf sampleEnv := by
  refine ⟨?_, ?_, ?_, ?_, ?_⟩
  · simp [exampleBlock2]
  · unfold isNormalLine; decide
  · intro p hp
    simp only [exampleBlock2, List.mem_cons, List.mem_singleton, List.not_mem_nil,
      or_false] at hp
    rcases hp with rfl | rfl | rfl | rfl | rfl
    · show isPlainLine _; unfold isPlainLine; decide
    · show isVertexLine _ _ _; unfold isVertexLine; decide
    · show isVertexLine _ _ _; unfold isVertexLine; decide
    · show isVertexLine _ _ _; unfold isVertexLine; decide
    · show isPlainLine _; unfold isPlainLine; decide
  · unfold isEndfacetLine; decide
  · decide

set_option maxRecDepth 10000 in
theorem exampleShortBlock_wf : exampleShortBlock.wf sampleEnv := by
  refine ⟨?_, ?_, ?_, ?_, ?_⟩
  · simp [exampleShortBlock]
  · unfold isNormalLine; decide
  · intro p hp
    simp only [exampleShortBlock, List.mem_cons, List.mem_singleton, List.not_mem_nil,
      or_false] at hp
    rcases hp with rfl | rfl | rfl | rfl
    · show isPlainLine _; unfold isPlainLine; decide
    · show isVertexLine _ _ _; unfold isVertexLine; decide
    · show isVertexLine _ _ _; unfold isVertexLine; decide
    · show isPlainLine _; unfold isPlainLine; decide
  · unfold isEndfacetLine; decide
  · decide

set_option maxRecDepth 20000 in
/-- C6, witness: a two-vertex block between two complete blocks is left out; the blocks
around it are stored. -/
theorem C6_ascii_malformed_block_skipped_witness :
    loadStl sampleEnv (some exampleAsciiShort) [] =
      (.returned true, [exampleBlock.facet, exampleBlock2.facet]) := by
  have h := C6_ascii_malformed_block_skipped sampleEnv (str "solid x") [exampleBlock]
    exampleShortBlock [exampleBlock2] [] (str "endsolid x") [nl] [] (by decide) (by decide)
    (by intro b hb; rw [List.mem_singleton] at hb; subst hb; exact ⟨exampleBlock_wf, by decide⟩)
    ⟨exampleShortBlock_wf, by decide⟩
    (by intro b hb; rw [List.mem_singleton] at hb; subst hb; exact ⟨exampleBlock2_wf, by decide⟩)
    (by simp) (by decide) (by unfold lineParses; decide) (by decide) (by simp)
  have e : str "solid x" ++ nl :: (unlines (blockLines ([exampleBlock] ++
      exampleShortBlock :: [exampleBlock2]) ++ []) ++ (str "endsolid x" ++ [nl])) =
      exampleAsciiShort := by decide
  rw [e] at h
  exact h

/-! ## Lemmas: the binary reader -/

theorem getD_append_at (hdr rest : List Byte) (b d : Byte) :
    (hdr ++ b :: rest).getD hdr.length d = b := by
  induction hdr with
  | nil => rfl
  | cons a hdr ih => simpa using ih

/-- The count is taken from the byte at offset 80 alone. -/
theorem triangleCount_eq (env : Env) (hdr rest : List Byte) (b0 : Byte)
    (h : hdr.length = 80) :
    triangleCount env (hdr ++ b0 :: rest) = charToUInt env b0 := by
  have e : (List.drop 80 (hdr ++ b0 :: rest)).getD 0 (env.uninit (80 + 0)) = b0 := by
    rw [← h, List.drop_left]
    rfl
  unfold triangleCount IfStream.read IfStream.ofBytes
  simp only [Nat.zero_add]
  have r4 : List.range 4 = [0, 1, 2, 3] := by decide
  rw [r4]
  simp only [List.map_cons, List.getD_cons_zero, e]

theorem charToUInt_zero (env : Env) : charToUInt env 0 = 0 := by
  simp [charToUInt]

/-- A binary file whose byte at offset 80 is zero is refused, with the store as it was. -/
theorem loadStlBinary_zero (env : Env) (hdr rest : List Byte) (old : List Facet)
    (h : hdr.length = 80) :
    loadStlBinary env (hdr ++ 0 :: rest) old = (.returned false, old) := by
  unfold loadStlBinary
  simp only [triangleCount_eq env hdr rest 0 h, charToUInt_zero, if_true]

theorem startsWith_head (a : Byte) (l : List Byte) (h : a ≠ 115) :
    startsWith (a :: l) kwSolid = false := by
  have e : kwSolid = 115 :: str "olid" := by decide
  rw [e]
  simp [startsWith, h]

/-- A line without the byte `s` does not contain `solid`. -/
theorem contains_solid_false (l : List Byte) (h : (115 : Byte) ∉ l) :
    contains l kwSolid = false := by
  induction l with
  | nil => decide
  | cons a l ih =>
    have ha : a ≠ 115 := fun e => h (by simp [e])
    have hl : (115 : Byte) ∉ l := fun e => h (by simp [e])
    simp [contains, startsWith_head a l ha, ih hl]

theorem firstLine_subset (bytes : List Byte) (b : Byte) (h : b ∈ firstLine bytes) :
    b ∈ bytes :=
  (List.takeWhile_sublist _).subset h

theorem binaryLoop_length (env : Env) (k : Nat) (s : IfStream) (fs : List Facet) :
    (binaryLoop env k s fs).length = fs.length + k := by
  induction k generalizing s fs with
  | zero => rfl
  | succ k ih =>
    rw [binaryLoop, ih]
    simp
    omega

theorem read_of_le (env : Env) (s : IfStream) (n : Nat) (h : n ≤ s.rest.length) :
    s.read env n = (s.rest.take n, ⟨s.rest.drop n, s.off + n⟩) := by
  unfold IfStream.read
  congr 1
  apply List.ext_getElem
  · simp [h]
  · intro i h1 h2
    have hi : i < n := by simpa using h1
    have hi2 : i < s.rest.length := by omega
    simp [List.getD_eq_getElem?_getD, List.getElem?_eq_getElem hi2]

theorem parseStlData_of_le (env : Env) (s : IfStream) (h : 12 ≤ s.rest.length) :
    parseStlData env s = (vertexAt s.rest 0, ⟨s.rest.drop 12, s.off + 12⟩) := by
  unfold parseStlData
  rw [read_of_le env s 4 (by omega)]
  simp only
  rw [read_of_le env _ 4 (by simp; omega)]
  simp only
  rw [read_of_le env _ 4 (by simp; omega)]
  simp [vertexAt, floatAt, List.drop_drop, Nat.add_assoc]

theorem floatAt_append (r more : List Byte) (i : Nat) (h : i + 4 ≤ r.length) :
    floatAt (r ++ more) i = floatAt r i := by
  unfold floatAt
  rw [List.drop_append_of_le_length (by omega), List.take_append_of_le_length (by simp; omega)]

theorem floatAt_drop (r : List Byte) (i j : Nat) :
    floatAt (r.drop j) i = floatAt r (j + i) := by
  simp [floatAt, List.drop_drop, Nat.add_comm]

theorem vertexAt_drop (r : List Byte) (j : Nat) :
    vertexAt (r.drop j) 0 = vertexAt r j := by
  simp [vertexAt, floatAt_drop]

theorem vertexAt_append (r more : List Byte) (i : Nat) (h : i + 12 ≤ r.length) :
    vertexAt (r ++ more) i = vertexAt r i := by
  unfold vertexAt
  rw [floatAt_append r more i (by omega), floatAt_append r more (i + 4) (by omega),
    floatAt_append r more (i + 8) (by omega)]

/-- One pass of the loop over a stream that begins with a full record. -/
theorem binaryLoop_record (env : Env) (k : Nat) (r more : List Byte) (off : Nat)
    (fs : List Facet) (h : r.length = 50) :
    binaryLoop env (k + 1) ⟨r ++ more, off⟩ fs =
      binaryLoop env k ⟨more, off + 50⟩ (fs ++ [recordFacet r]) := by
  have hl : (r ++ more).length = 50 + more.length := by simp [h]
  have p1 := parseStlData_of_le env ⟨r ++ more, off⟩ (by simp only [hl]; omega)
  have p2 := parseStlData_of_le env ⟨(r ++ more).drop 12, off + 12⟩
    (by simp only [List.length_drop, hl]; omega)
  have p3 := parseStlData_of_le env ⟨((r ++ more).drop 12).drop 12, off + 12 + 12⟩
    (by simp only [List.length_drop, hl]; omega)
  have p4 := parseStlData_of_le env ⟨(((r ++ more).drop 12).drop 12).drop 12,
    off + 12 + 12 + 12⟩ (by simp only [List.length_drop, hl]; omega)
  have p5 := read_of_le env ⟨((((r ++ more).drop 12).drop 12).drop 12).drop 12,
    off + 12 + 12 + 12 + 12⟩ 2 (by simp only [List.length_drop, hl]; omega)
  rw [binaryLoop]
  simp only [p1, p2, p3, p4, p5]
  simp only [List.drop_drop, vertexAt_drop, Nat.add_assoc, Nat.reduceAdd]
  have hd : List.drop 50 (r ++ more) = more := by
    rw [← h, List.drop_left]
  simp only [hd, recordFacet]
  rw [vertexAt_append r more 0 (by omega), vertexAt_append r more 12 (by omega),
    vertexAt_append r more 24 (by omega), vertexAt_append r more 36 (by omega)]

/-- The loop over a stream that begins with full records reads them in order. -/
theorem binaryLoop_records (env : Env) (rs : List (List Byte)) (m : Nat) (more : List Byte)
    (off : Nat) (fs : List Facet) (h : ∀ r ∈ rs, r.length = 50) :
    binaryLoop env (rs.length + m) ⟨concatRecords rs ++ more, off⟩ fs =
      binaryLoop env m ⟨more, off + 50 * rs.length⟩ (fs ++ rs.map recordFacet) := by
  induction rs generalizing off fs with
  | nil => simp [concatRecords]
  | cons r rs ih =>
    have h1 := h r (by simp)
    have h2 : ∀ x ∈ rs, x.length = 50 := fun x hx => h x (by simp [hx])
    have e : (r :: rs).length + m = (rs.length + m) + 1 := by simp; omega
    rw [e]
    simp only [concatRecords, List.append_assoc]
    rw [binaryLoop_record env _ r _ off fs h1, ih _ _ h2]
    simp only [List.length_cons, List.map_cons, List.append_assoc, List.singleton_append]
    have eo : off + 50 + 50 * rs.length = off + 50 * (rs.length + 1) := by omega
    rw [eo]

/-- A binary file in which the count that the code reads is the number of full records
present: the load returns `true` and appends the facets of the records, in order. -/
theorem loadStl_binary_records (env : Env) (hdr : List Byte) (b0 b1 b2 b3 : Byte)
    (rs : List (List Byte)) (more : List Byte) (old : List Facet)
    (hlen : hdr.length = 80)
    (hbin : contains (firstLine (hdr ++ b0 :: b1 :: b2 :: b3 :: (concatRecords rs ++ more)))
      kwSolid = false)
    (hcount : charToUInt env b0 = rs.length) (hne : rs ≠ [])
    (hrs : ∀ r ∈ rs, r.length = 50) :
    loadStl env (some (hdr ++ b0 :: b1 :: b2 :: b3 :: (concatRecords rs ++ more))) old =
      (.returned true, old ++ rs.map recordFacet) := by
  rw [loadStl_of_not_solid env _ _ hbin]
  unfold loadStlBinary
  rw [triangleCount_eq env hdr _ b0 hlen, hcount]
  have h0 : rs.length ≠ 0 := by simpa using hne
  rw [if_neg h0]
  have e1 : ((IfStream.ofBytes (hdr ++ b0 :: b1 :: b2 :: b3 ::
      (concatRecords rs ++ more))).read env 80).2 =
      ⟨b0 :: b1 :: b2 :: b3 :: (concatRecords rs ++ more), 80⟩ := by
    rw [read_of_le env _ 80 (by simp [IfStream.ofBytes, hlen])]
    simp only [IfStream.ofBytes, Nat.zero_add]
    rw [← hlen, List.drop_left]
  rw [e1, read_of_le env _ 4 (by simp)]
  simp only [List.drop_succ_cons, List.drop_zero]
  have := binaryLoop_records env rs 0 more (80 + 4) old hrs
  simp only [Nat.add_zero] at this
  rw [this]
  rfl

/-! ## Theorems about the binary path -/

/-- C2, evaluated at a failing input: the binary file `binary256` declares 256 triangles
in its 4-byte little-endian count field and holds 256 full records, yet the load returns
`false` and stores nothing, because only the first count byte (zero) is used. -/
theorem C2_binary_256_records_rejected (env : Env) :
    le32 0 1 0 0 = 256 ∧
    binary256.length = 80 + 4 + 256 * 50 ∧
    loadStl env (some binary256) [] = (.returned false, []) := by
  have e : binary256 =
      List.replicate 80 0 ++ 0 :: ([1, 0, 0] ++ List.replicate (256 * 50) 0) := by
    simp only [binary256, List.append_assoc, List.cons_append, List.nil_append]
  refine ⟨by decide, ?_, ?_⟩
  · simp only [binary256, List.length_append, List.length_replicate, List.length_cons,
      List.length_nil]
  · have hs : contains (firstLine binary256) kwSolid = false := by
      apply contains_solid_false
      intro hmem
      have hm := firstLine_subset _ _ hmem
      simp only [binary256, List.mem_append, List.mem_replicate, List.mem_cons,
        List.not_mem_nil, or_false] at hm
      revert hm
      decide
    rw [loadStl_of_not_solid env _ _ hs, e]
    exact loadStlBinary_zero env _ _ _ (List.length_replicate 80 0)

/-- C3, evaluated at a failing input: with the count field `00 01 00 00` (little-endian
256) at offsets 80..83 the loop bound `triangleCount` is 0, the value of the first byte. -/
theorem C3_count_reads_first_byte_only (env : Env) (rest : List Byte) :
    le32 0 1 0 0 = 256 ∧
    triangleCount env (List.replicate 80 0 ++ 0 :: 1 :: 0 :: 0 :: rest) = 0 := by
  refine ⟨by decide, ?_⟩
  rw [triangleCount_eq env _ _ 0 (by simp), charToUInt_zero]

set_option maxRecDepth 20000 in
/-- C4, evaluated at a failing input: `binaryTruncated` declares 2 triangles and ends 3
bytes into the second record; on every platform the load returns `true` and appends 2
facets, the first from the full record; with `sampleEnv` the second facet is made of the 3
bytes that were left and of unwritten (zero) buffer bytes. -/
theorem C4_binary_truncated_accepted (env : Env) :
    binaryTruncated.length = 80 + 4 + 50 + 3 ∧
    (loadStl env (some binaryTruncated) []).1 = .returned true ∧
    (loadStl env (some binaryTruncated) []).2.length = 2 ∧
    (loadStl env (some binaryTruncated) []).2.head? = some (recordFacet (List.replicate 50 1)) ∧
    loadStl sampleEnv (some binaryTruncated) [] =
      (.returned true,
        [recordFacet (List.replicate 50 1),
          ⟨⟨⟨3 + 256 * 3 + 65536 * 3⟩, ⟨0⟩, ⟨0⟩⟩, GLVertex.default, GLVertex.default,
            GLVertex.default⟩]) := by
  have hs : contains (firstLine binaryTruncated) kwSolid = false := by decide
  have hc : triangleCount env binaryTruncated = 2 := by
    have e : binaryTruncated =
        List.replicate 80 0 ++ 2 :: ([0, 0, 0] ++ List.replicate 50 1 ++ [3, 3, 3]) := by
      decide
    rw [e, triangleCount_eq env _ _ 2 (by decide)]
    simp [charToUInt]
  have hl : loadStl env (some binaryTruncated) [] =
      (.returned true, binaryLoop env 2
        (((IfStream.ofBytes binaryTruncated).read env 80).2.read env 4).2 []) := by
    rw [loadStl_of_not_solid env _ _ hs]
    unfold loadStlBinary
    rw [hc]
    rfl
  refine ⟨by decide, ?_, ?_, ?_, by decide⟩
  · rw [hl]
  · rw [hl]
    exact binaryLoop_length env 2 _ []
  · rw [hl]
    rfl

/-- C9: a binary file whose declared triangle count is zero (count field `00 00 00 00`):
the load returns `false` and the store is unchanged, whatever bytes follow the count. -/
theorem C9_binary_zero_count (env : Env) (hdr rest : List Byte) (old : List Facet)
    (hlen : hdr.length = 80)
    (hbin : contains (firstLine (hdr ++ 0 :: 0 :: 0 :: 0 :: rest)) kwSolid = false) :
    le32 0 0 0 0 = 0 ∧
    loadStl env (some (hdr ++ 0 :: 0 :: 0 :: 0 :: rest)) old = (.returned false, old) := by
  refine ⟨by decide, ?_⟩
  rw [loadStl_of_not_solid env _ _ hbin]
  exact loadStlBinary_zero env hdr _ old hlen

set_option maxRecDepth 20000 in
/-- C9, witness: a zero count followed by a full record, loaded into a store that holds
one facet. -/
theorem C9_binary_zero_count_witness :
    le32 0 0 0 0 = 0 ∧
    loadStl sampleEnv (some (List.replicate 80 7 ++ 0 :: 0 :: 0 :: 0 :: List.replicate 50 1))
      [exampleFacet] = (.returned false, [exampleFacet]) :=
  C9_binary_zero_count sampleEnv (List.replicate 80 7) (List.replicate 50 1) [exampleFacet]
    (by decide) (by decide)

/-- C10: the file is parsed as ASCII exactly when its first line (the bytes before the
first newline) contains `solid`; the ASCII loop then runs on the lines after the first
one only, and otherwise the binary reader gets the whole file from offset 0, so that its
count byte is the byte at offset 80 of the file. -/
theorem C10_format_sniffing (env : Env) (bytes : List Byte) (old : List Facet) :
    loadStl env (some bytes) old =
      (if contains (firstLine bytes) kwSolid = true then
        asciiLoop env (readLines (afterFirstLine bytes)) ParseState.init old
       else loadStlBinary env bytes old) ∧
    triangleCount env bytes = charToUInt env (bytes.getD 80 (env.uninit 80)) := by
  constructor
  · by_cases c : contains (firstLine bytes) kwSolid = true
    · rw [if_pos c]
      exact loadStl_of_solid env bytes old c
    · rw [if_neg c]
      exact loadStl_of_not_solid env bytes old (by simpa using c)
  · unfold triangleCount IfStream.read IfStream.ofBytes
    have r4 : List.range 4 = [0, 1, 2, 3] := by decide
    rw [r4]
    simp only [List.map_cons, List.getD_cons_zero, Nat.zero_add, Nat.add_zero]
    congr 1
    simp [List.getD_eq_getElem?_getD]

/-! ## Theorems about `loadMesh` -/

theorem extractVertex_four (n a b c : GLVertex) :
    extractVertex (MeshRecord.toPy (.four n a b c)) 0 = some n ∧
    extractVertex (MeshRecord.toPy (.four n a b c)) 1 = some a ∧
    extractVertex (MeshRecord.toPy (.four n a b c)) 2 = some b ∧
    extractVertex (MeshRecord.toPy (.four n a b c)) 3 = some c := by
  simp [extractVertex, MeshRecord.toPy, pyTriple, PyObj.item, PyObj.extractFloat]

theorem loadRecord_wf (r : MeshRecord) (fs : List Facet) (h : r.wf) :
    loadRecord r.toPy fs = some (fs ++ r.facet.toList) := by
  cases r with
  | four n a b c =>
    obtain ⟨e0, e1, e2, e3⟩ := extractVertex_four n a b c
    unfold loadRecord
    rw [e0, e1, e2, e3]
    simp [MeshRecord.toPy, PyObj.len, MeshRecord.facet]
  | other items =>
    have h4 : items.length ≠ 4 := h
    simp [loadRecord, MeshRecord.toPy, PyObj.len, MeshRecord.facet, h4]

theorem meshLoop_wf (rs : List MeshRecord) (fs : List Facet) (h : ∀ r ∈ rs, r.wf) :
    meshLoop (rs.map MeshRecord.toPy) fs =
      (.returned true, fs ++ rs.filterMap MeshRecord.facet) := by
  induction rs generalizing fs with
  | nil => simp [meshLoop]
  | cons r rs ih =>
    have h1 := h r (by simp)
    have h2 : ∀ x ∈ rs, x.wf := fun x hx => h x (by simp [hx])
    simp only [List.map_cons, meshLoop, loadRecord_wf r fs h1]
    rw [ih _ h2]
    cases hr : r.facet <;> simp [List.filterMap_cons, hr]

/-- C7: for a non-empty outer sequence, `loadMesh` returns `true` and appends exactly the
facets of the records that have 4 elements, in input order, each as
`Facet(element 0, element 1, element 2, element 3)`; records of another length are
skipped. -/
theorem C7_loadMesh_four_element_records (rs : List MeshRecord) (old : List Facet)
    (hne : rs ≠ []) (hwf : ∀ r ∈ rs, r.wf) :
    loadMesh (rs.map MeshRecord.toPy) old =
      (.returned true, old ++ rs.filterMap MeshRecord.facet) := by
  unfold loadMesh
  have hl : (rs.map MeshRecord.toPy).length ≠ 0 := by
    simpa using hne
  rw [if_neg hl]
  exact meshLoop_wf rs old hwf

/-- C7, witness: a record of length 3 followed by a record of length 4 stores exactly one
facet, the one of the second record. -/
theorem C7_loadMesh_four_element_records_witness :
    loadMesh
        [.seq [pyTriple GLVertex.default, pyTriple GLVertex.default, pyTriple GLVertex.default],
          .seq [pyTriple exampleFacet.normal, pyTriple exampleFacet.v1,
            pyTriple exampleFacet.v2, pyTriple exampleFacet.v3]]
        [] =
      (.returned true, [exampleFacet]) :=
  C7_loadMesh_four_element_records
    [.other [pyTriple GLVertex.default, pyTriple GLVertex.default, pyTriple GLVertex.default],
      .four exampleFacet.normal exampleFacet.v1 exampleFacet.v2 exampleFacet.v3]
    [] (by simp)
    (by
      intro r hr
      simp only [List.mem_cons, List.mem_singleton, List.not_mem_nil, or_false] at hr
      rcases hr with rfl | rfl
      · simp [MeshRecord.wf]
      · trivial)

/-- C8: `loadMesh` on the empty outer sequence returns `false` and leaves the store as it
was (no facet when it was empty). -/
theorem C8_loadMesh_empty (old : List Facet) :
    loadMesh [] old = (.returned false, old) ∧ (loadMesh [] []).2.length = 0 := by
  constructor <;> rfl

/-! ## Theorems about `parseStlLine` and single lines -/

theorem parseStlLine_count (env : Env) (line kw : List Byte)
    (h : (split (trim (replaceAllEmpty line kw))).length ≠ 3) :
    parseStlLine env line kw = some GLVertex.default := by
  unfold parseStlLine
  simp only
  generalize split (trim (replaceAllEmpty line kw)) = toks at h
  match toks, h with
  | [], _ => rfl
  | [_], _ => rfl
  | [_, _], _ => rfl
  | [_, _, _], h => exact absurd rfl h
  | _ :: _ :: _ :: _ :: _, _ => rfl

/-- C13: when the text of a line, after the keyword is removed and the line is trimmed,
splits into a number of tokens other than 3, `parseStlLine` raises nothing and returns the
default vertex (zero in every component; no component is parsed); in the loop a `vertex`
line of that kind adds the default vertex to the pending ones, a `facet normal` line of
that kind sets the pending normal to the default, and the loop goes on to the next line. -/
theorem C13_weak_parsing (env : Env) (line kw : List Byte) (st : ParseState)
    (fs : List Facet)
    (h : (split (trim (replaceAllEmpty line kw))).length ≠ 3) :
    parseStlLine env line kw = some GLVertex.default ∧
    (kw = kwVertex → contains line kwVertex = true → contains line kwFacetNormal = false →
      contains line kwEndfacet = false → contains line kwEndsolid = false →
      processLine env line st fs = .next ⟨st.n, st.vertices ++ [GLVertex.default]⟩ fs) ∧
    (kw = kwFacetNormal → contains line kwFacetNormal = true →
      contains line kwVertex = false → contains line kwEndfacet = false →
      contains line kwEndsolid = false →
      processLine env line st fs = .next ⟨GLVertex.default, st.vertices⟩ fs) := by
  have hp := parseStlLine_count env line kw h
  refine ⟨hp, ?_, ?_⟩
  · intro hk h1 h2 h3 h4
    subst hk
    exact processLine_vertex env line _ st fs ⟨h2, h1, h3, h4, hp⟩
  · intro hk h1 h2 h3 h4
    subst hk
    exact processLine_normal env line _ st fs ⟨h1, h2, h3, h4, hp⟩

set_option maxRecDepth 10000 in
/-- C13, witness: the line `vertex 1 2` has two tokens; it parses to the default vertex,
which becomes pending. -/
theorem C13_weak_parsing_witness :
    parseStlLine sampleEnv (str "vertex 1 2") kwVertex = some GLVertex.default ∧
    processLine sampleEnv (str "vertex 1 2") ParseState.init [] =
      .next ⟨GLVertex.default, [GLVertex.default]⟩ [] :=
  have h := C13_weak_parsing sampleEnv (str "vertex 1 2") kwVertex ParseState.init []
    (by decide)
  ⟨h.1, h.2.1 rfl (by decide) (by decide) (by decide) (by decide)⟩

/-! ## Theorems about the store -/

theorem stepEndfacet_append (line : List Byte) (st : ParseState) (fs : List Facet) :
    ∃ extra, (stepEndfacet line st fs).2 = fs ++ extra := by
  unfold stepEndfacet
  by_cases c : contains line kwEndfacet = true
  · simp only [c, if_true]
    split
    · exact ⟨_, rfl⟩
    · exact ⟨[], by simp⟩
  · exact ⟨[], by simp [c]⟩

theorem asciiLoop_append (env : Env) (ls : List (List Byte)) (st : ParseState)
    (fs : List Facet) : ∃ extra, (asciiLoop env ls st fs).2 = fs ++ extra := by
  induction ls generalizing st fs with
  | nil => exact ⟨[], by simp [asciiLoop]⟩
  | cons l ls ih =>
    rw [asciiLoop]
    cases hp : processLine env l st fs with
    | threw => exact ⟨[], by simp⟩
    | done fs1 =>
      simp only
      unfold processLine at hp
      cases h1 : stepNormal env l st with
      | none => simp [h1] at hp
      | some st1 =>
        cases h2 : stepVertex env l st1 with
        | none => simp [h1, h2] at hp
        | some st2 =>
          simp only [h1, h2] at hp
          obtain ⟨extra, he⟩ := stepEndfacet_append l st2 fs
          by_cases c : contains l kwEndsolid = true
          · simp only [c, if_true, LineResult.done.injEq] at hp
            exact ⟨extra, by rw [← hp, he]⟩
          · simp [c] at hp
    | next st3 fs1 =>
      simp only
      unfold processLine at hp
      cases h1 : stepNormal env l st with
      | none => simp [h1] at hp
      | some st1 =>
        cases h2 : stepVertex env l st1 with
        | none => simp [h1, h2] at hp
        | some st2 =>
          simp only [h1, h2] at hp
          obtain ⟨extra, he⟩ := stepEndfacet_append l st2 fs
          by_cases c : contains l kwEndsolid = true
          · simp [c] at hp
          · simp only [c, Bool.false_eq_true, if_false, LineResult.next.injEq] at hp
            obtain ⟨extra2, he2⟩ := ih st3 fs1
            exact ⟨extra ++ extra2, by rw [he2, ← hp.2, he]; simp⟩

theorem binaryLoop_append (env : Env) (k : Nat) (s : IfStream) (fs : List Facet) :
    ∃ extra, binaryLoop env k s fs = fs ++ extra := by
  induction k generalizing s fs with
  | zero => exact ⟨[], by simp [binaryLoop]⟩
  | succ k ih =>
    rw [binaryLoop]
    obtain ⟨extra, he⟩ := ih (((parseStlData env (parseStlData env (parseStlData env
      (parseStlData env s).2).2).2).2.read env 2).2)
      (fs ++ [Facet.mk (parseStlData env s).1 (parseStlData env (parseStlData env s).2).1
        (parseStlData env (parseStlData env (parseStlData env s).2).2).1
        (parseStlData env (parseStlData env (parseStlData env
          (parseStlData env s).2).2).2).1])
    rw [he]
    exact ⟨_, List.append_assoc _ _ _⟩

theorem loadStlBinary_append (env : Env) (bytes : List Byte) (fs : List Facet) :
    ∃ extra, (loadStlBinary env bytes fs).2 = fs ++ extra := by
  unfold loadStlBinary
  by_cases c : triangleCount env bytes = 0
  · exact ⟨[], by simp [c]⟩
  · simp only [c, if_false]
    exact binaryLoop_append env _ _ fs

theorem loadRecord_append (record : PyObj) (fs fs1 : List Facet)
    (h : loadRecord record fs = some fs1) : ∃ extra, fs1 = fs ++ extra := by
  unfold loadRecord at h
  cases hl : record.len with
  | none => simp [hl] at h
  | some dataLen =>
    simp only [hl] at h
    by_cases c : dataLen = 4
    · simp only [c, if_true] at h
      cases e0 : extractVertex record 0 with
      | none => simp [e0] at h
      | some d0 =>
        cases e1 : extractVertex record 1 with
        | none => simp [e0, e1] at h
        | some d1 =>
          cases e2 : extractVertex record 2 with
          | none => simp [e0, e1, e2] at h
          | some d2 =>
            cases e3 : extractVertex record 3 with
            | none => simp [e0, e1, e2, e3] at h
            | some d3 =>
              simp only [e0, e1, e2, e3, Option.some.injEq] at h
              exact ⟨_, h.symm⟩
    · simp only [c, if_false, Option.some.injEq] at h
      exact ⟨[], by simp [h]⟩

theorem meshLoop_append (rs : List PyObj) (fs : List Facet) :
    ∃ extra, (meshLoop rs fs).2 = fs ++ extra := by
  induction rs generalizing fs with
  | nil => exact ⟨[], by simp [meshLoop]⟩
  | cons r rs ih =>
    rw [meshLoop]
    cases h : loadRecord r fs with
    | none => exact ⟨[], by simp⟩
    | some fs1 =>
      simp only
      obtain ⟨e1, he1⟩ := loadRecord_append r fs fs1 h
      obtain ⟨e2, he2⟩ := ih fs1
      exact ⟨e1 ++ e2, by rw [he2, he1]; simp⟩

/-- C16: every load only appends to the store.  Whatever the file (also one that cannot be
opened) or the Python list, and however the call ends, the facets that `getFacets` gave
before the call are the beginning of what it gives after the call. -/
theorem C16_loads_only_append (env : Env) (file : Option (List Byte)) (pyfacets : List PyObj)
    (old : List Facet) :
    (∃ extra, getFacets (loadStl env file old).2 = getFacets old ++ extra) ∧
    (∃ extra, getFacets (loadMesh pyfacets old).2 = getFacets old ++ extra) := by
  unfold getFacets
  constructor
  · cases file with
    | none => exact ⟨[], by simp [loadStl]⟩
    | some bytes =>
      by_cases c : contains (firstLine bytes) kwSolid = true
      · rw [loadStl_of_solid env bytes old c]
        exact asciiLoop_append env _ _ old
      · rw [loadStl_of_not_solid env bytes old (by simpa using c)]
        exact loadStlBinary_append env bytes old
  · unfold loadMesh
    by_cases c : pyfacets.length = 0
    · exact ⟨[], by simp [c]⟩
    · simp only [c, if_false]
      exact meshLoop_append pyfacets old

/-- C20: with records that are sequences whose 4-element ones hold triples of numbers,
`loadMesh` returns `true` exactly when the outer sequence is not empty; on a non-empty
input without any 4-element record it returns `true` and appends nothing. -/
theorem C20_loadMesh_success_iff_nonempty (rs : List MeshRecord) (old : List Facet)
    (hwf : ∀ r ∈ rs, r.wf) :
    ((loadMesh (rs.map MeshRecord.toPy) old).1 = .returned true ↔ rs ≠ []) ∧
    (rs ≠ [] → (∀ r ∈ rs, r.facet = none) →
      loadMesh (rs.map MeshRecord.toPy) old = (.returned true, old)) := by
  have hm := meshLoop_wf rs old hwf
  constructor
  · constructor
    · intro h e
      subst e
      simp [loadMesh] at h
    · intro hne
      have hl : (rs.map MeshRecord.toPy).length ≠ 0 := by simpa using hne
      unfold loadMesh
      rw [if_neg hl, hm]
  · intro hne hnone
    have hl : (rs.map MeshRecord.toPy).length ≠ 0 := by simpa using hne
    unfold loadMesh
    rw [if_neg hl, hm]
    have e : rs.filterMap MeshRecord.facet = [] := by
      rw [List.filterMap_eq_nil_iff]
      exact hnone
    rw [e, List.append_nil]

/-- C20, witness: two records of lengths 3 and 0 give success and no facet. -/
theorem C20_loadMesh_success_iff_nonempty_witness :
    loadMesh [.seq [pyTriple GLVertex.default, pyTriple GLVertex.default,
      pyTriple GLVertex.default], .seq []] [exampleFacet] =
      (.returned true, [exampleFacet]) :=
  (C20_loadMesh_success_iff_nonempty
    [.other [pyTriple GLVertex.default, pyTriple GLVertex.default, pyTriple GLVertex.default],
      .other []] [exampleFacet]
    (by
      intro r hr
      simp only [List.mem_cons, List.mem_singleton, List.not_mem_nil, or_false] at hr
      rcases hr with rfl | rfl <;> simp [MeshRecord.wf])).2 (by simp)
    (by
      intro r hr
      simp only [List.mem_cons, List.mem_singleton, List.not_mem_nil, or_false] at hr
      rcases hr with rfl | rfl <;> rfl)

/-! ## Theorems about `endsolid`, keyword order and the pending normal -/

theorem processLine_endsolid_cases (env : Env) (l : List Byte) (st : ParseState)
    (fs : List Facet) (h : contains l kwEndsolid = true) :
    processLine env l st fs = .threw ∨ ∃ fs1, processLine env l st fs = .done fs1 := by
  cases hn : stepNormal env l st with
  | none => exact Or.inl (by simp [processLine, hn])
  | some st1 =>
    cases hv : stepVertex env l st1 with
    | none => exact Or.inl (by simp [processLine, hn, hv])
    | some st2 =>
      exact Or.inr ⟨(stepEndfacet l st2 fs).2, by simp [processLine, hn, hv, h]⟩

/-- What follows the first `endsolid` line has no part in the result of the loop. -/
theorem asciiLoop_cut (env : Env) (pre : List (List Byte)) (endLine : List Byte)
    (more1 more2 : List (List Byte)) (st : ParseState) (fs : List Facet)
    (hend : contains endLine kwEndsolid = true) :
    asciiLoop env (pre ++ endLine :: more1) st fs =
      asciiLoop env (pre ++ endLine :: more2) st fs := by
  induction pre generalizing st fs with
  | nil =>
    simp only [List.nil_append, asciiLoop]
    rcases processLine_endsolid_cases env endLine st fs hend with e | ⟨fs1, e⟩ <;> rw [e]
  | cons l pre ih =>
    simp only [List.cons_append, asciiLoop]
    cases processLine env l st fs with
    | threw => rfl
    | done fs1 => rfl
    | next st1 fs1 => exact ih st1 fs1

theorem processLine_parses (env : Env) (l : List Byte) (st : ParseState) (fs : List Facet)
    (hp : lineParses env l) : processLine env l st fs ≠ .threw := by
  obtain ⟨hp1, hp2⟩ := hp
  unfold processLine
  have e1 : ∃ st1, stepNormal env l st = some st1 := by
    unfold stepNormal
    by_cases c : contains l kwFacetNormal = true
    · obtain ⟨w, hw⟩ := Option.isSome_iff_exists.mp (hp1 c)
      exact ⟨⟨w, st.vertices⟩, by simp [c, hw]⟩
    · exact ⟨st, by simp [c]⟩
  obtain ⟨st1, e1⟩ := e1
  have e2 : ∃ st2, stepVertex env l st1 = some st2 := by
    unfold stepVertex
    by_cases c : contains l kwVertex = true
    · obtain ⟨w, hw⟩ := Option.isSome_iff_exists.mp (hp2 c)
      exact ⟨⟨st1.n, st1.vertices ++ [w]⟩, by simp [c, hw]⟩
    · exact ⟨st1, by simp [c]⟩
  obtain ⟨st2, e2⟩ := e2
  simp only [e1, e2]
  by_cases c : contains l kwEndsolid = true <;> simp [c]

/-- With no throw, the loop returns `true` at the first `endsolid` line. -/
theorem asciiLoop_success (env : Env) (pre : List (List Byte)) (endLine : List Byte)
    (more : List (List Byte)) (st : ParseState) (fs : List Facet)
    (hpre : ∀ l ∈ pre, contains l kwEndsolid = false ∧ lineParses env l)
    (hend : contains endLine kwEndsolid = true) (hendp : lineParses env endLine) :
    (asciiLoop env (pre ++ endLine :: more) st fs).1 = .returned true := by
  induction pre generalizing st fs with
  | nil =>
    simp only [List.nil_append, asciiLoop]
    rcases processLine_endsolid_cases env endLine st fs hend with e | ⟨fs1, e⟩
    · exact absurd e (processLine_parses env endLine st fs hendp)
    · rw [e]
  | cons l pre ih =>
    have h1 := hpre l (by simp)
    have h2 : ∀ x ∈ pre, contains x kwEndsolid = false ∧ lineParses env x :=
      fun x hx => hpre x (by simp [hx])
    simp only [List.cons_append, asciiLoop]
    cases hpl : processLine env l st fs with
    | threw => exact absurd hpl (processLine_parses env l st fs h1.2)
    | done fs1 =>
      exfalso
      unfold processLine at hpl
      cases hn : stepNormal env l st with
      | none => simp [hn] at hpl
      | some st1 =>
        cases hv : stepVertex env l st1 with
        | none => simp [hn, hv] at hpl
        | some st2 => simp [hn, hv, h1.1] at hpl
    | next st1 fs1 => exact ih st1 fs1 h2

/-- C14: in an ASCII file, nothing after the first line that contains `endsolid` (the first
line of the file apart) has any part in the result: two files that agree up to and including
that line give the same outcome and the same store; and when `std::stof` does not throw on
the lines up to and including it, the load returns `true` at that line. -/
theorem C14_endsolid_ends_load (env : Env) (first : List Byte) (pre : List (List Byte))
    (endLine rest1 rest2 : List Byte) (old : List Facet)
    (hfirst : contains first kwSolid = true) (hfnl : nl ∉ first)
    (hpre : ∀ l ∈ pre, nl ∉ l ∧ contains l kwEndsolid = false)
    (hend : contains endLine kwEndsolid = true) (hendnl : nl ∉ endLine)
    (hrest1 : ∀ b, rest1.head? = some b → b = nl)
    (hrest2 : ∀ b, rest2.head? = some b → b = nl) :
    loadStl env (some (first ++ nl :: (unlines pre ++ (endLine ++ rest1)))) old =
      loadStl env (some (first ++ nl :: (unlines pre ++ (endLine ++ rest2)))) old ∧
    ((∀ l ∈ pre, lineParses env l) → lineParses env endLine →
      (loadStl env (some (first ++ nl :: (unlines pre ++ (endLine ++ rest1)))) old).1 =
        .returned true) := by
  have hne : endLine ≠ [] := by
    intro e
    rw [e] at hend
    simp [contains, kwEndsolid, str] at hend
  have hs : ∀ rest, contains (firstLine (first ++ nl :: rest)) kwSolid = true := by
    intro rest
    rw [firstLine_append _ _ hfnl]
    exact hfirst
  obtain ⟨m1, hm1⟩ := readLines_last endLine rest1 hendnl hne hrest1
  obtain ⟨m2, hm2⟩ := readLines_last endLine rest2 hendnl hne hrest2
  rw [loadStl_of_solid env _ old (hs _), loadStl_of_solid env _ old (hs _),
    afterFirstLine_append _ _ hfnl, afterFirstLine_append _ _ hfnl,
    readLines_unlines _ _ (fun l hl => (hpre l hl).1),
    readLines_unlines _ _ (fun l hl => (hpre l hl).1), hm1, hm2]
  refine ⟨asciiLoop_cut env pre endLine m1 m2 _ old hend, ?_⟩
  intro hp hendp
  exact asciiLoop_success env pre endLine m1 _ old (fun l hl => ⟨(hpre l hl).2, hp l hl⟩)
    hend hendp

set_option maxRecDepth 10000 in
/-- C14, witness: the example of the spec, followed in one file by nothing and in the
other by a further facet block; both loads agree, and the load returns `true`. -/
theorem C14_endsolid_ends_load_witness :
    loadStl sampleEnv (some (str "solid x" ++ nl ::
        (unlines exampleBlock.lines ++ (str "endsolid x" ++ [])))) [] =
      loadStl sampleEnv (some (str "solid x" ++ nl ::
        (unlines exampleBlock.lines ++ (str "endsolid x" ++
          (nl :: unlines exampleBlock2.lines))))) [] ∧
    (loadStl sampleEnv (some (str "solid x" ++ nl ::
        (unlines exampleBlock.lines ++ (str "endsolid x" ++ [])))) []).1 =
      .returned true :=
  have h := C14_endsolid_ends_load sampleEnv (str "solid x") exampleBlock.lines
    (str "endsolid x") [] (nl :: unlines exampleBlock2.lines) [] (by decide) (by decide)
    (by decide) (by decide) (by decide) (by simp) (by simp)
  ⟨h.1, h.2 (by simp only [lineParses]; decide) (by simp only [lineParses]; decide)⟩

/-- C18: the four keyword tests are applied to every line one after the other, each on its
own: the `facet normal` test sets the pending normal, the `vertex` test adds a pending
vertex, the `endfacet` test stores a facet when three vertices are pending and clears them,
the `endsolid` test ends the load, each exactly when the line contains its keyword,
whatever else the line contains.  The tests are case-sensitive: `ENDSOLID` matches none. -/
theorem C18_keyword_tests_independent (env : Env) (line : List Byte) (st : ParseState)
    (fs : List Facet) (pn pv : GLVertex)
    (hn : contains line kwFacetNormal = true → parseStlLine env line kwFacetNormal = some pn)
    (hv : contains line kwVertex = true → parseStlLine env line kwVertex = some pv) :
    processLine env line st fs =
      (if contains line kwEndsolid = true then
        .done (storeAfterLine line (normalAfterLine line st.n pn)
          (pendingAfterVertex line st.vertices pv) fs)
       else
        .next ⟨normalAfterLine line st.n pn,
            if contains line kwEndfacet = true then []
            else pendingAfterVertex line st.vertices pv⟩
          (storeAfterLine line (normalAfterLine line st.n pn)
            (pendingAfterVertex line st.vertices pv) fs)) ∧
    contains (str "ENDSOLID") kwEndsolid = false ∧
    processLine env (str "ENDSOLID") st fs = .next st fs := by
  refine ⟨?_, by decide, ?_⟩
  · have e1 : stepNormal env line st = some ⟨normalAfterLine line st.n pn, st.vertices⟩ := by
      unfold stepNormal normalAfterLine
      by_cases c : contains line kwFacetNormal = true
      · simp [c, hn c]
      · simp [c]
    have e2 : stepVertex env line ⟨normalAfterLine line st.n pn, st.vertices⟩ =
        some ⟨normalAfterLine line st.n pn, pendingAfterVertex line st.vertices pv⟩ := by
      unfold stepVertex pendingAfterVertex
      by_cases c : contains line kwVertex = true
      · simp [c, hv c]
      · simp [c]
    have e3 : ∀ (n : GLVertex) (vs : List GLVertex),
        stepEndfacet line ⟨n, vs⟩ fs =
          (⟨n, if contains line kwEndfacet = true then [] else vs⟩,
            storeAfterLine line n vs fs) := by
      intro n vs
      unfold stepEndfacet storeAfterLine
      by_cases c : contains line kwEndfacet = true
      · match vs with
        | [] => simp [c]
        | [_] => simp [c]
        | [_, _] => simp [c]
        | [_, _, _] => simp [c]
        | _ :: _ :: _ :: _ :: _ => simp [c]
      · simp [c]
    unfold processLine
    simp only [e1, e2, e3]
  · exact processLine_plain env _ st fs (by unfold isPlainLine; decide)

set_option maxRecDepth 10000 in
/-- C18, witness: the line `endfacet endsolid`, met with three pending vertices, stores the
facet and ends the load. -/
theorem C18_keyword_tests_independent_witness :
    processLine sampleEnv (str "endfacet endsolid")
        ⟨exampleFacet.normal, [exampleFacet.v1, exampleFacet.v2, exampleFacet.v3]⟩ [] =
      .done [exampleFacet] :=
  (C18_keyword_tests_independent sampleEnv (str "endfacet endsolid")
    ⟨exampleFacet.normal, [exampleFacet.v1, exampleFacet.v2, exampleFacet.v3]⟩ []
    GLVertex.default GLVertex.default (by decide) (by decide)).1.trans rfl

theorem asciiLoop_blocks_normal (env : Env) (bs : List AsciiBlock) (more : List (List Byte))
    (n : GLVertex) (fs : List Facet) (h : ∀ b ∈ bs, b.wf env) :
    asciiLoop env (blockLines bs ++ more) ⟨n, []⟩ fs =
      asciiLoop env more ⟨lastNormal n bs, []⟩ (fs ++ blockFacets bs) := by
  induction bs generalizing n fs with
  | nil => simp [blockLines, blockFacets, lastNormal]
  | cons b bs ih =>
    have h1 := h b (by simp)
    have h2 : ∀ x ∈ bs, x.wf env := fun x hx => h x (by simp [hx])
    simp only [blockLines, List.append_assoc, lastNormal]
    rw [asciiLoop_block env b _ n fs h1, ih b.normal _ h2]
    by_cases c : b.vertices.length = 3 <;> simp [blockFacets, c]

/-- C19: the pending normal is not reset at `endfacet`.  After any well-formed blocks, three
`vertex` lines closed by an `endfacet` line, with no `facet normal` line of their own, are
stored with the normal of the last `facet normal` line before them, and with the default
(zero) normal when no block precedes them. -/
theorem C19_normal_kept_across_blocks (env : Env) (first : List Byte)
    (blocks : List AsciiBlock) (body : List (List Byte × Option GLVertex))
    (closeLine : List Byte) (trail : List (List Byte)) (endLine rest : List Byte)
    (a b c : GLVertex) (old : List Facet)
    (hfirst : contains first kwSolid = true) (hfnl : nl ∉ first)
    (hblocks : ∀ b ∈ blocks, b.wf env)
    (hbody : ∀ p ∈ body, (match p.2 with
      | some v => isVertexLine env p.1 v
      | none => isPlainLine p.1) ∧ nl ∉ p.1)
    (hvs : body.filterMap Prod.snd = [a, b, c])
    (hclose : isEndfacetLine closeLine) (hclosenl : nl ∉ closeLine)
    (htrail : ∀ l ∈ trail, isPlainLine l ∧ nl ∉ l)
    (hend : contains endLine kwEndsolid = true) (hendp : lineParses env endLine)
    (hendnl : nl ∉ endLine) (hrest : ∀ b, rest.head? = some b → b = nl) :
    loadStl env
        (some (first ++ nl ::
          (unlines (blockLines blocks ++ (body.map Prod.fst ++ closeLine :: trail)) ++
            (endLine ++ rest))))
        old =
      (.returned true,
        old ++ blockFacets blocks ++ [⟨lastNormal GLVertex.default blocks, a, b, c⟩]) := by
  have hne : endLine ≠ [] := by
    intro e
    rw [e] at hend
    simp [contains, kwEndsolid, str] at hend
  rw [loadStl_of_solid env _ old (by rw [firstLine_append _ _ hfnl]; exact hfirst),
    afterFirstLine_append _ _ hfnl]
  have hlines : ∀ l ∈ blockLines blocks ++ (body.map Prod.fst ++ closeLine :: trail),
      nl ∉ l := by
    intro l hl
    rcases List.mem_append.mp hl with hl | hl
    · exact blockLines_nl blocks env hblocks l hl
    · rcases List.mem_append.mp hl with hl | hl
      · obtain ⟨p, hp, rfl⟩ := List.mem_map.mp hl
        exact (hbody p hp).2
      · rcases List.mem_cons.mp hl with hl | hl
        · rw [hl]; exact hclosenl
        · exact (htrail l hl).2
  rw [readLines_unlines _ _ hlines]
  obtain ⟨more, hmore⟩ := readLines_last endLine rest hendnl hne hrest
  rw [hmore]
  have e0 : ParseState.init = ⟨GLVertex.default, []⟩ := rfl
  simp only [List.append_assoc]
  rw [e0, asciiLoop_blocks_normal env blocks _ _ old hblocks,
    asciiLoop_body env body _ _ _ _ (fun p hp => (hbody p hp).1)]
  simp only [List.cons_append, List.nil_append, hvs]
  rw [asciiLoop]
  simp only [processLine_endfacet env closeLine _ _ hclose]
  rw [asciiLoop_plain env trail _ _ _ (fun l hl => (htrail l hl).1)]
  simp [asciiLoop, processLine_endsolid env endLine _ _ hend hendp]

set_option maxRecDepth 20000 in
/-- C19, witness: after the example block with normal (0,0,1), three `vertex` lines and an
`endfacet` line are stored with the normal (0,0,1). -/
theorem C19_normal_kept_across_blocks_witness :
    loadStl sampleEnv
        (some (str ("solid x\nfacet normal 0 0 1\nouter loop\nvertex 0 0 0\nvertex 1 0 0\n"
          ++ "vertex 0 1 0\nendloop\nendfacet\nvertex 1 1 1\nvertex 2 0 0\nvertex 0 3 0\n"
          ++ "endfacet\nendsolid x\n")))
        [] =
      (.returned true,
        [exampleFacet, ⟨exampleFacet.normal, exampleBlock2.facet.v1, exampleBlock2.facet.v2,
          exampleBlock2.facet.v3⟩]) := by
  have h := C19_normal_kept_across_blocks sampleEnv (str "solid x") [exampleBlock]
    [(str "vertex 1 1 1", some exampleBlock2.facet.v1),
      (str "vertex 2 0 0", some exampleBlock2.facet.v2),
      (str "vertex 0 3 0", some exampleBlock2.facet.v3)]
    (str "endfacet") [] (str "endsolid x") [nl]
    exampleBlock2.facet.v1 exampleBlock2.facet.v2 exampleBlock2.facet.v3 []
    (by decide) (by decide)
    (by intro b hb; rw [List.mem_singleton] at hb; subst hb; exact exampleBlock_wf)
    (by
      intro p hp
      simp only [List.mem_cons, List.mem_singleton, List.not_mem_nil, or_false] at hp
      rcases hp with rfl | rfl | rfl
      · exact ⟨by show isVertexLine _ _ _; unfold isVertexLine; decide, by decide⟩
      · exact ⟨by show isVertexLine _ _ _; unfold isVertexLine; decide, by decide⟩
      · exact ⟨by show isVertexLine _ _ _; unfold isVertexLine; decide, by decide⟩)
    rfl (by unfold isEndfacetLine; decide) (by decide) (by simp) (by decide)
    (by unfold lineParses; decide) (by decide) (by simp)
  have e : str "solid x" ++ nl ::
      (unlines (blockLines [exampleBlock] ++
        (List.map Prod.fst [(str "vertex 1 1 1", some exampleBlock2.facet.v1),
          (str "vertex 2 0 0", some exampleBlock2.facet.v2),
          (str "vertex 0 3 0", some exampleBlock2.facet.v3)] ++ str "endfacet" :: [])) ++
        (str "endsolid x" ++ [nl])) =
      str ("solid x\nfacet normal 0 0 1\nouter loop\nvertex 0 0 0\nvertex 1 0 0\n"
          ++ "vertex 0 1 0\nendloop\nendfacet\nvertex 1 1 1\nvertex 2 0 0\nvertex 0 3 0\n"
          ++ "endfacet\nendsolid x\n") := by decide
  rw [e] at h
  exact h

/-! ## Theorems about binary records -/

/-- The binary reader on a file with a full header and count field. -/
theorem loadStlBinary_eq (env : Env) (hdr : List Byte) (b0 b1 b2 b3 : Byte)
    (rest : List Byte) (old : List Facet) (hlen : hdr.length = 80) :
    loadStlBinary env (hdr ++ b0 :: b1 :: b2 :: b3 :: rest) old =
      if charToUInt env b0 = 0 then (.returned false, old)
      else (.returned true, binaryLoop env (charToUInt env b0) ⟨rest, 84⟩ old) := by
  unfold loadStlBinary
  rw [triangleCount_eq env hdr _ b0 hlen]
  have e1 : ((IfStream.ofBytes (hdr ++ b0 :: b1 :: b2 :: b3 :: rest)).read env 80).2 =
      ⟨b0 :: b1 :: b2 :: b3 :: rest, 80⟩ := by
    rw [read_of_le env _ 80 (by simp [IfStream.ofBytes, hlen])]
    simp only [IfStream.ofBytes, Nat.zero_add]
    rw [← hlen, List.drop_left]
  dsimp only
  rw [e1, read_of_le env _ 4 (by simp)]
  simp only [List.drop_succ_cons, List.drop_zero]

theorem recordFacet_attr (body : List Byte) (attr : Byte × Byte) (h : body.length = 48) :
    recordFacet (attrRecord body attr) = recordFacet body := by
  unfold recordFacet attrRecord
  rw [vertexAt_append body _ 0 (by omega), vertexAt_append body _ 12 (by omega),
    vertexAt_append body _ 24 (by omega), vertexAt_append body _ 36 (by omega)]

/-- The loop over a stream that holds at least as many full records as the loop has passes:
it appends the facets of the first `k` records, which are made of the 48 geometry bytes of
each; the attribute bytes and the bytes after the records have no part in them. -/
theorem binaryLoop_attr (env : Env)
    (recs : List (List Byte × (Byte × Byte) × (Byte × Byte)))
    (pick : (Byte × Byte) × (Byte × Byte) → Byte × Byte) (tail : List Byte)
    (k off : Nat) (fs : List Facet) (h : ∀ r ∈ recs, r.1.length = 48)
    (hk : k ≤ recs.length) :
    binaryLoop env k
        ⟨concatRecords (recs.map (fun r => attrRecord r.1 (pick r.2))) ++ tail, off⟩ fs =
      fs ++ (recs.take k).map (fun r => recordFacet r.1) := by
  induction recs generalizing k off fs with
  | nil =>
    have hk0 : k = 0 := by simpa using hk
    subst hk0
    simp [binaryLoop]
  | cons r recs ih =>
    have h1 := h r (by simp)
    have h2 : ∀ x ∈ recs, x.1.length = 48 := fun x hx => h x (by simp [hx])
    cases k with
    | zero => simp [binaryLoop]
    | succ k =>
      have hk2 : k ≤ recs.length := by
        simp only [List.length_cons] at hk
        omega
      simp only [List.map_cons, concatRecords, List.append_assoc]
      rw [binaryLoop_record env k _ _ off fs (by simp [attrRecord, h1]),
        recordFacet_attr _ _ h1, ih k (off + 50) _ h2 hk2]
      simp

/-- C17: the two attribute bytes of a record are skipped whatever they hold.  Two files
that are both taken as binary, hold at least as many full records as the count that is read
asks for, and differ only in the attribute bytes of their records give the same outcome and
the same store: `false` and the old store when the count is zero, otherwise `true` and the
facets made of the 48 geometry bytes of the records that are read. -/
theorem C17_attribute_bytes_ignored (env : Env) (hdr : List Byte) (c0 c1 c2 c3 : Byte)
    (recs : List (List Byte × (Byte × Byte) × (Byte × Byte))) (tail : List Byte)
    (old : List Facet) (hlen : hdr.length = 80)
    (hrecs : ∀ r ∈ recs, r.1.length = 48)
    (hcount : charToUInt env c0 ≤ recs.length)
    (hbin1 : contains (firstLine (hdr ++ c0 :: c1 :: c2 :: c3 ::
      (concatRecords (recs.map (fun r => attrRecord r.1 r.2.1)) ++ tail))) kwSolid = false)
    (hbin2 : contains (firstLine (hdr ++ c0 :: c1 :: c2 :: c3 ::
      (concatRecords (recs.map (fun r => attrRecord r.1 r.2.2)) ++ tail))) kwSolid = false) :
    loadStl env (some (hdr ++ c0 :: c1 :: c2 :: c3 ::
        (concatRecords (recs.map (fun r => attrRecord r.1 r.2.1)) ++ tail))) old =
      loadStl env (some (hdr ++ c0 :: c1 :: c2 :: c3 ::
        (concatRecords (recs.map (fun r => attrRecord r.1 r.2.2)) ++ tail))) old ∧
    loadStl env (some (hdr ++ c0 :: c1 :: c2 :: c3 ::
        (concatRecords (recs.map (fun r => attrRecord r.1 r.2.1)) ++ tail))) old =
      (if charToUInt env c0 = 0 then (.returned false, old)
       else (.returned true,
        old ++ (recs.take (charToUInt env c0)).map (fun r => recordFacet r.1))) := by
  have e1 := binaryLoop_attr env recs Prod.fst tail _ 84 old hrecs hcount
  have e2 := binaryLoop_attr env recs Prod.snd tail _ 84 old hrecs hcount
  rw [loadStl_of_not_solid env _ _ hbin1, loadStl_of_not_solid env _ _ hbin2,
    loadStlBinary_eq env hdr c0 c1 c2 c3 _ old hlen,
    loadStlBinary_eq env hdr c0 c1 c2 c3 _ old hlen, e1, e2]
  exact ⟨rfl, rfl⟩

set_option maxRecDepth 20000 in
/-- C17, witness: a count of 1 and one record, with attribute bytes `00 00` in one file and
`ff 7f` in the other; both loads store the facet of the 48 geometry bytes. -/
theorem C17_attribute_bytes_ignored_witness :
    loadStl sampleEnv (some (List.replicate 80 0 ++ 1 :: 0 :: 0 :: 0 ::
        (concatRecords ([(List.replicate 48 1, ((0, 0), (255, 127)))].map
          (fun r => attrRecord r.1 r.2.1)) ++ []))) [] =
      loadStl sampleEnv (some (List.replicate 80 0 ++ 1 :: 0 :: 0 :: 0 ::
        (concatRecords ([(List.replicate 48 1, ((0, 0), (255, 127)))].map
          (fun r => attrRecord r.1 r.2.2)) ++ []))) [] ∧
    loadStl sampleEnv (some (List.replicate 80 0 ++ 1 :: 0 :: 0 :: 0 ::
        (concatRecords ([(List.replicate 48 1, ((0, 0), (255, 127)))].map
          (fun r => attrRecord r.1 r.2.1)) ++ []))) [] =
      (.returned true, [recordFacet (List.replicate 48 1)]) := by
  have h := C17_attribute_bytes_ignored sampleEnv (List.replicate 80 0) 1 0 0 0
    [(List.replicate 48 1, ((0, 0), (255, 127)))] [] [] (by decide) (by decide) (by decide)
    (by decide) (by decide)
  exact ⟨h.1, h.2.trans (by decide)⟩

theorem ofBytes_encodeFloat (f : Float32) (h : f.wf) :
    Float32.ofBytes (encodeFloat f) = f := by
  obtain ⟨n⟩ := f
  have hn : n < 2 ^ 32 := h
  have e : (n % 256) + 256 * (n / 256 % 256) + 65536 * (n / 65536 % 256)
      + 16777216 * (n / 16777216 % 256) = n := by omega
  simp only [Float32.ofBytes, encodeFloat, List.getD_cons_zero, List.getD_cons_succ,
    Fin.ofNat, Fin.val_mk]
  exact congrArg Float32.mk e

theorem recordFacet_encodeFacet (f : Facet) (attr : Byte × Byte) (h : f.wf) :
    recordFacet (encodeFacet f attr) = f := by
  obtain ⟨⟨nx, ny, nz⟩, ⟨ax, ay, az⟩, ⟨bx, b_y, bz⟩, ⟨cx, cy, cz⟩⟩ := f
  obtain ⟨⟨h1, h2, h3⟩, ⟨h4, h5, h6⟩, ⟨h7, h8, h9⟩, ⟨h10, h11, h12⟩⟩ := h
  have e : recordFacet (encodeFacet ⟨⟨nx, ny, nz⟩, ⟨ax, ay, az⟩, ⟨bx, b_y, bz⟩,
      ⟨cx, cy, cz⟩⟩ attr) =
      ⟨⟨Float32.ofBytes (encodeFloat nx), Float32.ofBytes (encodeFloat ny),
          Float32.ofBytes (encodeFloat nz)⟩,
        ⟨Float32.ofBytes (encodeFloat ax), Float32.ofBytes (encodeFloat ay),
          Float32.ofBytes (encodeFloat az)⟩,
        ⟨Float32.ofBytes (encodeFloat bx), Float32.ofBytes (encodeFloat b_y),
          Float32.ofBytes (encodeFloat bz)⟩,
        ⟨Float32.ofBytes (encodeFloat cx), Float32.ofBytes (encodeFloat cy),
          Float32.ofBytes (encodeFloat cz)⟩⟩ := rfl
  rw [e, ofBytes_encodeFloat nx h1, ofBytes_encodeFloat ny h2, ofBytes_encodeFloat nz h3,
    ofBytes_encodeFloat ax h4, ofBytes_encodeFloat ay h5, ofBytes_encodeFloat az h6,
    ofBytes_encodeFloat bx h7, ofBytes_encodeFloat b_y h8, ofBytes_encodeFloat bz h9,
    ofBytes_encodeFloat cx h10, ofBytes_encodeFloat cy h11, ofBytes_encodeFloat cz h12]

theorem encodeFacet_length (f : Facet) (attr : Byte × Byte) :
    (encodeFacet f attr).length = 50 := rfl

set_option maxRecDepth 20000 in
/-- C15, counterexample: one facet whose first normal bytes spell `solid`, encoded after
a header of 80 zero bytes (which does not contain `solid`).  The encoded file has no
newline, so its first line reaches into the record and contains `solid`; the file is read
as ASCII and the load returns `false` with an empty store. -/
theorem C15_round_trip_counterexample :
    (List.replicate 80 (0 : Byte)).length = 80 ∧
    contains (List.replicate 80 0) kwSolid = false ∧
    solidFacet.normal.x.bits < 2 ^ 32 ∧ solidFacet.normal.y.bits < 2 ^ 32 ∧
    loadStl sampleEnv (some (encodeStl (List.replicate 80 0) [(solidFacet, (0, 0))])) [] =
      (.returned false, []) := by
  decide

/-- C15, amended: a list of N facets, 1 ≤ N ≤ 127, encoded in the binary layout after an
80-byte header, where the first line of the encoded file (the bytes before its first
newline) does not contain `solid`: the load into an empty store returns `true` and the
store holds the N facets, bit for bit and in order. -/
theorem C15_binary_round_trip (env : Env) (hdr : List Byte)
    (items : List (Facet × (Byte × Byte)))
    (hlen : hdr.length = 80) (hne : items ≠ []) (hN : items.length ≤ 127)
    (hwf : ∀ p ∈ items, p.1.wf)
    (hbin : contains (firstLine (encodeStl hdr items)) kwSolid = false) :
    loadStl env (some (encodeStl hdr items)) [] = (.returned true, items.map Prod.fst) := by
  have e : encodeStl hdr items =
      hdr ++ Fin.ofNat items.length :: Fin.ofNat (items.length / 256) ::
        Fin.ofNat (items.length / 65536) :: Fin.ofNat (items.length / 16777216) ::
        (concatRecords (items.map (fun p => encodeFacet p.1 p.2)) ++ []) := by
    simp [encodeStl]
  rw [e] at hbin ⊢
  have hc : charToUInt env (Fin.ofNat items.length) =
      (items.map (fun p => encodeFacet p.1 p.2)).length := by
    have hv : (Fin.ofNat items.length : Byte).val = items.length := by
      simp only [Fin.ofNat, Fin.val_mk]
      omega
    unfold charToUInt
    rw [hv, List.length_map]
    have : ¬ (env.charSigned = true ∧ 128 ≤ items.length) := by
      intro hh
      omega
    rw [if_neg this]
  rw [loadStl_binary_records env hdr _ _ _ _ _ [] [] hlen hbin hc (by simpa using hne)
    (by
      intro r hr
      obtain ⟨p, _, rfl⟩ := List.mem_map.mp hr
      exact encodeFacet_length p.1 p.2)]
  simp only [List.nil_append, List.map_map]
  congr 1
  apply List.map_congr_left
  intro p hp
  exact recordFacet_encodeFacet p.1 p.2 (hwf p hp)

set_option maxRecDepth 20000 in
/-- C15, witness: the facet of the spec's example, encoded and loaded again. -/
theorem C15_binary_round_trip_witness :
    loadStl sampleEnv (some (encodeStl (List.replicate 80 0) [(exampleFacet, (0, 0))])) [] =
      (.returned true, [exampleFacet]) :=
  C15_binary_round_trip sampleEnv (List.replicate 80 0) [(exampleFacet, (0, 0))]
    (by decide) (by simp) (by decide)
    (by
      intro p hp
      rw [List.mem_singleton] at hp
      subst hp
      unfold Facet.wf GLVertex.wf Float32.wf
      decide)
    (by decide)

/-! ## Theorems about tokens -/

theorem replaceAllAux_none (kw l : List Byte) (h : contains l kw = false) :
    replaceAllAux kw 0 l = l := by
  induction l with
  | nil => rfl
  | cons c cs ih =>
    simp only [contains, Bool.or_eq_false_iff] at h
    rw [replaceAllAux, if_neg (by simp [h.1]), ih h.2]

theorem replaceAllAux_skip (kw p rest : List Byte) :
    replaceAllAux kw p.length (p ++ rest) = replaceAllAux kw 0 rest := by
  induction p with
  | nil => rfl
  | cons c p ih =>
    simp only [List.length_cons, List.cons_append, replaceAllAux]
    exact ih

theorem startsWith_self_append (kw rest : List Byte) : startsWith (kw ++ rest) kw = true := by
  induction kw with
  | nil => cases rest <;> rfl
  | cons k kw ih => simp [startsWith, ih]

theorem replaceAllAux_space (k0 : Byte) (kt ws l : List Byte)
    (hk : isSpace k0 = false) (hws : ∀ b ∈ ws, isSpace b = true) :
    replaceAllAux (k0 :: kt) 0 (ws ++ l) = ws ++ replaceAllAux (k0 :: kt) 0 l := by
  induction ws with
  | nil => rfl
  | cons c ws ih =>
    have hc : isSpace c = true := hws c (by simp)
    have hne : c ≠ k0 := by
      intro e
      rw [e, hk] at hc
      exact absurd hc (by simp)
    have h2 : ∀ b ∈ ws, isSpace b = true := fun b hb => hws b (by simp [hb])
    simp only [List.cons_append]
    rw [replaceAllAux, if_neg (by simp [startsWith, hne]), ih h2]

/-- Removing the keyword from a line that holds it once, after white space only. -/
theorem replaceAllEmpty_keyword (k0 : Byte) (kt ws rest : List Byte)
    (hk : isSpace k0 = false) (hws : ∀ b ∈ ws, isSpace b = true)
    (hno : contains rest (k0 :: kt) = false) :
    replaceAllEmpty (ws ++ (k0 :: kt) ++ rest) (k0 :: kt) = ws ++ rest := by
  unfold replaceAllEmpty
  rw [List.append_assoc, replaceAllAux_space k0 kt ws _ hk hws]
  simp only [List.cons_append]
  rw [replaceAllAux, if_pos ⟨by simp, by
    have := startsWith_self_append (k0 :: kt) rest
    simpa using this⟩]
  simp only [List.length_cons, Nat.add_sub_cancel]
  rw [replaceAllAux_skip, replaceAllAux_none _ _ hno]

theorem dropWhile_space (ws l : List Byte) (hws : ∀ b ∈ ws, isSpace b = true)
    (hl : ∀ b, l.head? = some b → isSpace b = false) :
    (ws ++ l).dropWhile isSpace = l := by
  induction ws with
  | nil =>
    cases l with
    | nil => rfl
    | cons a l => simp [List.dropWhile, hl a rfl]
  | cons c ws ih =>
    have h2 : ∀ b ∈ ws, isSpace b = true := fun b hb => hws b (by simp [hb])
    simp [List.dropWhile, hws c (by simp), ih h2]

/-- Trimming removes the white space around a text that begins and ends with other
bytes. -/
theorem trim_core (ws1 ws2 core : List Byte) (a b : Byte) (mid : List Byte)
    (hws1 : ∀ b ∈ ws1, isSpace b = true) (hws2 : ∀ b ∈ ws2, isSpace b = true)
    (hcore : core = a :: mid ∨ core = [a]) (hlast : core.getLast? = some b)
    (ha : isSpace a = false) (hb : isSpace b = false) :
    trim (ws1 ++ core ++ ws2) = core := by
  unfold trim
  have hh : ∀ c, (core ++ ws2).head? = some c → isSpace c = false := by
    intro c hc
    rcases hcore with e | e <;> (rw [e] at hc; simp at hc; rw [← hc]; exact ha)
  rw [List.append_assoc, dropWhile_space ws1 _ hws1 hh, List.reverse_append]
  have hr : ∀ c, core.reverse.head? = some c → isSpace c = false := by
    intro c hc
    rw [List.head?_reverse, hlast] at hc
    simp at hc
    rw [← hc]
    exact hb
  rw [dropWhile_space ws2.reverse _ (fun c hc => hws2 c (by simpa using hc)) hr,
    List.reverse_reverse]

theorem split_ne_nil (l : List Byte) : split l ≠ [] := by
  induction l with
  | nil => simp [split]
  | cons c cs ih =>
    rw [split]
    by_cases hc : isSpace c = true
    · simp [hc]
    · simp only [hc]
      cases hs : split cs with
      | nil => simp
      | cons t ts => simp

theorem split_last (z : List Byte) (hz : ∀ b ∈ z, isSpace b = false) : split z = [z] := by
  induction z with
  | nil => rfl
  | cons c z ih =>
    have hc : isSpace c = false := hz c (by simp)
    have h2 : ∀ b ∈ z, isSpace b = false := fun b hb => hz b (by simp [hb])
    rw [split]
    simp [hc, ih h2]

theorem split_token (x rest : List Byte) (s : Byte) (hx : ∀ b ∈ x, isSpace b = false)
    (hs : isSpace s = true) : split (x ++ s :: rest) = x :: split rest := by
  induction x with
  | nil => simp [split, hs]
  | cons c x ih =>
    have hc : isSpace c = false := hx c (by simp)
    have h2 : ∀ b ∈ x, isSpace b = false := fun b hb => hx b (by simp [hb])
    simp only [List.cons_append]
    rw [split]
    simp [hc, ih h2]

set_option maxRecDepth 10000 in
/-- C11, counterexample: with one space between the tokens the line `vertex 1 2 3` gives
the vertex (1,2,3); with two spaces between the first two tokens, or with a tab and a
space, it gives the default vertex (0,0,0). -/
theorem C11_separator_runs_counterexample :
    parseStlLine sampleEnv (str "vertex 1 2 3") kwVertex =
      some ⟨Float32.one, ⟨0x40000000⟩, ⟨0x40400000⟩⟩ ∧
    parseStlLine sampleEnv (str "vertex 1  2 3") kwVertex = some GLVertex.default ∧
    parseStlLine sampleEnv (str "vertex 1\t 2 3") kwVertex = some GLVertex.default ∧
    split (trim (replaceAllEmpty (str "vertex 1  2 3") kwVertex)) =
      [str "1", [], str "2", str "3"] := by
  decide

/-- C11, amended: a line made of optional leading white space, the keyword (`facet normal`
or `vertex`), any white space, and three tokens x y z where exactly one white-space byte
(a space, a tab, ...) stands between x and y and between y and z, optionally followed by
white space, and where the keyword does not occur again: `parseStlLine` returns the vertex
of the values that `std::stof` gives for x, y and z. -/
theorem C11_single_separators (env : Env) (kw ws0 ws1 ws2 x y z : List Byte) (s1 s2 : Byte)
    (fx fy fz : Float32)
    (hkw : kw = kwVertex ∨ kw = kwFacetNormal)
    (hws0 : ∀ b ∈ ws0, isSpace b = true) (hws1 : ∀ b ∈ ws1, isSpace b = true)
    (hws2 : ∀ b ∈ ws2, isSpace b = true)
    (hs1 : isSpace s1 = true) (hs2 : isSpace s2 = true)
    (hx : x ≠ [] ∧ ∀ b ∈ x, isSpace b = false) (hy : ∀ b ∈ y, isSpace b = false)
    (hz : z ≠ [] ∧ ∀ b ∈ z, isSpace b = false)
    (hno : contains (ws1 ++ (x ++ s1 :: (y ++ s2 :: z)) ++ ws2) kw = false)
    (hfx : env.stof x = some fx) (hfy : env.stof y = some fy) (hfz : env.stof z = some fz) :
    parseStlLine env (ws0 ++ kw ++ (ws1 ++ (x ++ s1 :: (y ++ s2 :: z)) ++ ws2)) kw =
      some ⟨fx, fy, fz⟩ := by
  have hrem : replaceAllEmpty (ws0 ++ kw ++ (ws1 ++ (x ++ s1 :: (y ++ s2 :: z)) ++ ws2)) kw =
      ws0 ++ (ws1 ++ (x ++ s1 :: (y ++ s2 :: z)) ++ ws2) := by
    rcases hkw with e | e
    · have ek : kw = 118 :: str "ertex" := by rw [e]; decide
      rw [ek] at hno ⊢
      exact replaceAllEmpty_keyword 118 _ ws0 _ (by decide) hws0 hno
    · have ek : kw = 102 :: str "acet normal" := by rw [e]; decide
      rw [ek] at hno ⊢
      exact replaceAllEmpty_keyword 102 _ ws0 _ (by decide) hws0 hno
  obtain ⟨x0, xt, rfl⟩ := List.exists_cons_of_ne_nil hx.1
  obtain ⟨zl, hzl⟩ : ∃ zl, z.getLast? = some zl := by
    cases hg : z.getLast? with
    | none => exact absurd (List.getLast?_eq_none_iff.mp hg) hz.1
    | some zl => exact ⟨zl, rfl⟩
  have hzmem : zl ∈ z := List.mem_of_getLast?_eq_some hzl
  have hlast : ((x0 :: xt) ++ s1 :: (y ++ s2 :: z)).getLast? = some zl := by
    have e : (x0 :: xt) ++ s1 :: (y ++ s2 :: z) = ((x0 :: xt) ++ s1 :: (y ++ [s2])) ++ z := by
      simp
    rw [e, List.getLast?_append, hzl]
    rfl
  have htrim : trim (ws0 ++ (ws1 ++ ((x0 :: xt) ++ s1 :: (y ++ s2 :: z)) ++ ws2)) =
      (x0 :: xt) ++ s1 :: (y ++ s2 :: z) := by
    have e : ws0 ++ (ws1 ++ ((x0 :: xt) ++ s1 :: (y ++ s2 :: z)) ++ ws2) =
        (ws0 ++ ws1) ++ ((x0 :: xt) ++ s1 :: (y ++ s2 :: z)) ++ ws2 := by simp
    rw [e]
    exact trim_core (ws0 ++ ws1) ws2 _ x0 zl (xt ++ s1 :: (y ++ s2 :: z))
      (fun b hb => by
        rcases List.mem_append.mp hb with h | h
        · exact hws0 b h
        · exact hws1 b h)
      hws2 (Or.inl rfl) hlast (hx.2 x0 (by simp)) (hz.2 zl hzmem)
  have hsplit : split ((x0 :: xt) ++ s1 :: (y ++ s2 :: z)) = [x0 :: xt, y, z] := by
    rw [split_token _ _ s1 hx.2 hs1, split_token _ _ s2 hy hs2, split_last z hz.2]
  unfold parseStlLine
  simp only [hrem, htrim, hsplit, hfx, hfy, hfz]

set_option maxRecDepth 10000 in
/-- C11, witness: an indented `vertex` line with a tab after the keyword, single
separators (a space, a tab) and a trailing carriage return. -/
theorem C11_single_separators_witness :
    parseStlLine sampleEnv (str "   vertex\t 1 2\t3\r") kwVertex =
      some ⟨Float32.one, ⟨0x40000000⟩, ⟨0x40400000⟩⟩ := by
  have h := C11_single_separators sampleEnv kwVertex (str "   ") (str "\t ") (str "\r")
    (str "1") (str "2") (str "3") 32 9 Float32.one ⟨0x40000000⟩ ⟨0x40400000⟩
    (Or.inl rfl) (by decide) (by decide) (by decide) (by decide) (by decide) (by decide)
    (by decide) (by decide) (by decide) (by decide) (by decide) (by decide)
  have e : str "   " ++ kwVertex ++ (str "\t " ++ (str "1" ++ 32 :: (str "2" ++ 9 :: str "3"))
      ++ str "\r") = str "   vertex\t 1 2\t3\r" := by decide
  rw [e] at h
  exact h

/-! ## Theorems about tokens that are not numbers -/

theorem parseStlLine_throws (env : Env) (line kw t0 t1 t2 : List Byte)
    (htok : split (trim (replaceAllEmpty line kw)) = [t0, t1, t2])
    (hbad : env.stof t0 = none ∨ env.stof t1 = none ∨ env.stof t2 = none) :
    parseStlLine env line kw = none := by
  unfold parseStlLine
  simp only [htok]
  cases h0 : env.stof t0 with
  | none => rfl
  | some a =>
    cases h1 : env.stof t1 with
    | none => rfl
    | some b =>
      cases h2 : env.stof t2 with
      | none => rfl
      | some c => simp [h0, h1, h2] at hbad

theorem processLine_throws (env : Env) (line kw : List Byte) (st : ParseState)
    (fs : List Facet) (hkw : kw = kwVertex ∨ kw = kwFacetNormal)
    (hc : contains line kw = true) (hp : parseStlLine env line kw = none) :
    processLine env line st fs = .threw := by
  rcases hkw with e | e
  · subst e
    cases hn : stepNormal env line st with
    | none => simp [processLine, hn]
    | some st1 => simp [processLine, hn, stepVertex, hc, hp]
  · subst e
    simp [processLine, stepNormal, hc, hp]

/-- A throw on a line leaves the store as the lines before it made it. -/
theorem asciiLoop_throws (env : Env) (pre : List (List Byte)) (bad : List Byte)
    (more : List (List Byte)) (st : ParseState) (fs : List Facet)
    (hpre : ∀ l ∈ pre, contains l kwEndsolid = false ∧ lineParses env l)
    (hbad : ∀ st1 fs1, processLine env bad st1 fs1 = .threw) :
    asciiLoop env (pre ++ bad :: more) st fs = (.threw, (asciiLoop env pre st fs).2) := by
  induction pre generalizing st fs with
  | nil => simp [asciiLoop, hbad]
  | cons l pre ih =>
    have h1 := hpre l (by simp)
    have h2 : ∀ x ∈ pre, contains x kwEndsolid = false ∧ lineParses env x :=
      fun x hx => hpre x (by simp [hx])
    simp only [List.cons_append, asciiLoop]
    cases hpl : processLine env l st fs with
    | threw => exact absurd hpl (processLine_parses env l st fs h1.2)
    | done fs1 =>
      exfalso
      unfold processLine at hpl
      cases hn : stepNormal env l st with
      | none => simp [hn] at hpl
      | some st1 =>
        cases hv : stepVertex env l st1 with
        | none => simp [hn, hv] at hpl
        | some st2 => simp [hn, hv, h1.1] at hpl
    | next st1 fs1 => exact ih st1 fs1 h2

set_option maxRecDepth 10000 in
/-- C12, counterexample: the line `vertex 1 1.0abc 3` has three tokens, of which `1.0abc`
is a numeric prefix followed by other characters; `std::stof` converts the prefix, so the
load returns `true` and stores the vertex (1,1,3) built from that line. -/
theorem C12_numeric_prefix_counterexample :
    split (trim (replaceAllEmpty (str "vertex 1 1.0abc 3") kwVertex)) =
      [str "1", str "1.0abc", str "3"] ∧
    loadStl sampleEnv (some exampleAsciiPrefix) [] =
      (.returned true,
        [⟨exampleFacet.normal, ⟨Float32.one, Float32.one, ⟨0x40400000⟩⟩, exampleFacet.v2,
          exampleFacet.v3⟩]) := by
  decide

/-- C12, amended: a `facet normal` or `vertex` line with exactly three tokens after the
keyword, on at least one of which `std::stof` throws (a token without a numeric prefix,
such as `abc`): the exception leaves `loadStl`, which neither returns nor stores anything
built from that line; the store is what the lines before that line made it. -/
theorem C12_non_numeric_token_aborts (env : Env) (first : List Byte)
    (pre : List (List Byte)) (badLine rest kw t0 t1 t2 : List Byte) (old : List Facet)
    (hfirst : contains first kwSolid = true) (hfnl : nl ∉ first)
    (hpre : ∀ l ∈ pre, nl ∉ l ∧ contains l kwEndsolid = false ∧ lineParses env l)
    (hkw : kw = kwVertex ∨ kw = kwFacetNormal)
    (hc : contains badLine kw = true) (hbnl : nl ∉ badLine)
    (htok : split (trim (replaceAllEmpty badLine kw)) = [t0, t1, t2])
    (hbad : env.stof t0 = none ∨ env.stof t1 = none ∨ env.stof t2 = none)
    (hrest : ∀ b, rest.head? = some b → b = nl) :
    loadStl env (some (first ++ nl :: (unlines pre ++ (badLine ++ rest)))) old =
      (.threw, (loadStl env (some (first ++ nl :: unlines pre)) old).2) := by
  have hne : badLine ≠ [] := by
    intro e
    rw [e] at hc
    rcases hkw with k | k <;> (rw [k] at hc; simp [contains, kwVertex, kwFacetNormal, str] at hc)
  have hs : ∀ r, contains (firstLine (first ++ nl :: r)) kwSolid = true := by
    intro r
    rw [firstLine_append _ _ hfnl]
    exact hfirst
  obtain ⟨more, hmore⟩ := readLines_last badLine rest hbnl hne hrest
  have hp1 := readLines_unlines pre (badLine ++ rest) (fun l hl => (hpre l hl).1)
  have hp2 := readLines_unlines pre [] (fun l hl => (hpre l hl).1)
  rw [List.append_nil] at hp2
  rw [loadStl_of_solid env _ old (hs _), loadStl_of_solid env _ old (hs _),
    afterFirstLine_append _ _ hfnl, afterFirstLine_append _ _ hfnl, hp1, hp2, hmore]
  have hr : readLines [] = [] := rfl
  rw [hr, List.append_nil]
  exact asciiLoop_throws env pre badLine more _ old (fun l hl => (hpre l hl).2)
    (fun st1 fs1 => processLine_throws env badLine kw st1 fs1 hkw hc
      (parseStlLine_throws env badLine kw t0 t1 t2 htok hbad))

set_option maxRecDepth 10000 in
/-- C12, witness: after the example block, the line `vertex 1 abc 3` makes the load throw;
the store holds the facet of the block. -/
theorem C12_non_numeric_token_aborts_witness :
    loadStl sampleEnv (some (str "solid x" ++ nl ::
        (unlines exampleBlock.lines ++ (str "vertex 1 abc 3" ++ [nl])))) [] =
      (.threw, [exampleFacet]) := by
  have h := C12_non_numeric_token_aborts sampleEnv (str "solid x") exampleBlock.lines
    (str "vertex 1 abc 3") [nl] kwVertex (str "1") (str "abc") (str "3") []
    (by decide) (by decide) (by simp only [lineParses]; decide) (Or.inl rfl) (by decide)
    (by decide) (by decide) (by decide) (by simp)
  have e : (loadStl sampleEnv (some (str "solid x" ++ nl :: unlines exampleBlock.lines))
      []).2 = [exampleFacet] := by decide
  rw [e] at h
  exact h

end cutsim
